import Mathlib

/-!
# Verification of `ipv6utils` (buraglio/ipv6utils)

A shallow embedding, in Lean 4, of the address-algorithm core of
`ipv6utils.go`, together with theorems settling the specification claims.

Addresses are 16-byte values, modelled as `List Nat` whose entries are
bytes (`< 256`).  Strings are modelled through their character lists
(`String.data`).  The Go program leans on the standard library
`net.ParseIP` / `net.IP.String`; those are modelled here faithfully to the
semantics of Go's `netip.ParseAddr` (as wrapped by `net.ParseIP`, which
rejects zoned addresses and returns a 16-byte slice for both IPv4 and IPv6
input) and of `net.IP.String` (RFC 5952 rendering, with the dotted-quad
special case for IPv4-mapped values).
-/

namespace IPv6Utils

/-! ## Characters and digits -/

/-- The lowercase decimal digit characters, as printed by Go's `%d`. -/
def decDigitChar (d : Nat) : Char :=
  if d = 0 then '0' else if d = 1 then '1' else if d = 2 then '2'
  else if d = 3 then '3' else if d = 4 then '4' else if d = 5 then '5'
  else if d = 6 then '6' else if d = 7 then '7' else if d = 8 then '8' else '9'

/-- The lowercase hexadecimal digit characters, as printed by Go's `%x`. -/
def hexDigitChar (d : Nat) : Char :=
  if d < 10 then decDigitChar d
  else if d = 10 then 'a' else if d = 11 then 'b' else if d = 12 then 'c'
  else if d = 13 then 'd' else if d = 14 then 'e' else 'f'

/-- Decimal value of a character (as accepted by Go's IPv4 field parsing). -/
def digitVal (c : Char) : Option Nat :=
  if c = '0' then some 0 else if c = '1' then some 1 else if c = '2' then some 2
  else if c = '3' then some 3 else if c = '4' then some 4 else if c = '5' then some 5
  else if c = '6' then some 6 else if c = '7' then some 7 else if c = '8' then some 8
  else if c = '9' then some 9 else none

/-- Hexadecimal value of a character (Go accepts both cases in IPv6 fields). -/
def hexVal (c : Char) : Option Nat :=
  match digitVal c with
  | some d => some d
  | none =>
    if c = 'a' ∨ c = 'A' then some 10 else if c = 'b' ∨ c = 'B' then some 11
    else if c = 'c' ∨ c = 'C' then some 12 else if c = 'd' ∨ c = 'D' then some 13
    else if c = 'e' ∨ c = 'E' then some 14 else if c = 'f' ∨ c = 'F' then some 15
    else none

theorem digitVal_decDigitChar : ∀ d : Nat, d < 10 → digitVal (decDigitChar d) = some d := by
  decide

theorem hexVal_hexDigitChar : ∀ d : Nat, d < 16 → hexVal (hexDigitChar d) = some d := by
  decide

theorem digitVal_canon {c : Char} {d : Nat} (h : digitVal c = some d) :
    c = decDigitChar d := by
  unfold digitVal at h
  split_ifs at h <;>
    first
      | (injection h with h; subst_vars; decide)
      | exact Option.noConfusion h

theorem digitVal_lt {c : Char} {d : Nat} (h : digitVal c = some d) : d < 10 := by
  unfold digitVal at h
  split_ifs at h <;>
    first
      | (injection h with h; omega)
      | exact Option.noConfusion h

theorem hexVal_lt {c : Char} {d : Nat} (h : hexVal c = some d) : d < 16 := by
  unfold hexVal at h
  split at h
  · rename_i d₂ hd
    injection h with h
    have := digitVal_lt hd
    omega
  · split_ifs at h <;>
      first
        | (injection h with h; omega)
        | exact Option.noConfusion h

theorem decDigitChar_ne_zero {d : Nat} (hd : d < 10) (h : d ≠ 0) :
    decDigitChar d ≠ '0' := by
  revert h hd
  revert d
  decide

/-! ## Splitting on a separator and joining with a separator

Model of Go's `strings.Split` restricted to a single-character separator,
on character lists.  `joinSep` models `strings.Join` with a one-character
separator (and the separator-interleaved rendering loops of
`net.IP.String`). -/

def splitCh (sep : Char) : List Char → List (List Char)
  | [] => [[]]
  | c :: cs =>
    if c = sep then [] :: splitCh sep cs
    else
      match splitCh sep cs with
      | [] => [[c]]
      | f :: r => (c :: f) :: r

def joinSep (sep : Char) : List (List Char) → List Char
  | [] => []
  | [f] => f
  | f :: fs => f ++ sep :: joinSep sep fs

theorem splitCh_ne_nil (sep : Char) (l : List Char) : splitCh sep l ≠ [] := by
  induction l with
  | nil => simp [splitCh]
  | cons c cs ih =>
    unfold splitCh
    split
    · simp
    · split
      · simp
      · simp

theorem splitCh_cons_sepCase (sep : Char) (cs : List Char) :
    splitCh sep (sep :: cs) = [] :: splitCh sep cs := by
  simp [splitCh]

theorem splitCh_cons_ne {sep c : Char} {cs : List Char} (h : ¬ c = sep)
    {f : List Char} {r : List (List Char)} (hs : splitCh sep cs = f :: r) :
    splitCh sep (c :: cs) = (c :: f) :: r := by
  simp only [splitCh, if_neg h, hs]

theorem splitCh_no_sep {sep : Char} {l : List Char} (h : sep ∉ l) :
    splitCh sep l = [l] := by
  induction l with
  | nil => rfl
  | cons c cs ih =>
    have hc : ¬ c = sep := by
      intro hcs; exact h (hcs ▸ List.mem_cons_self c cs)
    exact splitCh_cons_ne hc (ih (fun hm => h (List.mem_cons_of_mem c hm)))

theorem splitCh_append_sep {sep : Char} {l r : List Char} (h : sep ∉ l) :
    splitCh sep (l ++ sep :: r) = l :: splitCh sep r := by
  induction l with
  | nil => simpa using splitCh_cons_sepCase sep r
  | cons c cs ih =>
    have hc : ¬ c = sep := by
      intro hcs; exact h (hcs ▸ List.mem_cons_self c cs)
    have ih2 := ih (fun hm => h (List.mem_cons_of_mem c hm))
    show splitCh sep (c :: (cs ++ sep :: r)) = (c :: cs) :: splitCh sep r
    exact splitCh_cons_ne hc ih2

theorem splitCh_joinSep {sep : Char} {fs : List (List Char)} (hne : fs ≠ [])
    (hf : ∀ f ∈ fs, sep ∉ f) :
    splitCh sep (joinSep sep fs) = fs := by
  induction fs with
  | nil => exact absurd rfl hne
  | cons f fs ih =>
    cases fs with
    | nil => exact splitCh_no_sep (hf f (List.mem_cons_self f []))
    | cons g gs =>
      have hj : joinSep sep (f :: g :: gs) = f ++ sep :: joinSep sep (g :: gs) := rfl
      rw [hj, splitCh_append_sep (hf f (by simp)), ih (by simp) (by
        intro x hx; exact hf x (List.mem_cons_of_mem f hx))]

theorem splitCh_joinSep_append {sep : Char} {fs : List (List Char)} {rest : List Char}
    (hne : fs ≠ []) (hf : ∀ f ∈ fs, sep ∉ f) :
    splitCh sep (joinSep sep fs ++ sep :: rest) = fs ++ splitCh sep rest := by
  induction fs with
  | nil => exact absurd rfl hne
  | cons f fs ih =>
    cases fs with
    | nil =>
      have hj : joinSep sep [f] = f := rfl
      rw [hj, splitCh_append_sep (hf f (by simp))]
      rfl
    | cons g gs =>
      have hj : joinSep sep (f :: g :: gs) = f ++ sep :: joinSep sep (g :: gs) := rfl
      rw [hj, List.append_assoc, List.cons_append _ _ _]
      rw [splitCh_append_sep (hf f (by simp))]
      rw [ih (by simp) (by intro x hx; exact hf x (List.mem_cons_of_mem f hx))]
      rfl

theorem joinSep_splitCh (sep : Char) (l : List Char) :
    joinSep sep (splitCh sep l) = l := by
  induction l with
  | nil => rfl
  | cons c cs ih =>
    by_cases hc : c = sep
    · subst hc
      rw [splitCh_cons_sepCase]
      cases hsp : splitCh c cs with
      | nil => exact absurd hsp (splitCh_ne_nil c cs)
      | cons f r =>
        rw [hsp] at ih
        show [] ++ c :: joinSep c (f :: r) = c :: cs
        simpa using ih
    · cases hsp : splitCh sep cs with
      | nil => exact absurd hsp (splitCh_ne_nil sep cs)
      | cons f r =>
        rw [splitCh_cons_ne hc hsp]
        rw [hsp] at ih
        cases r with
        | nil => simpa [joinSep] using ih
        | cons f2 r2 =>
          show (c :: f) ++ sep :: joinSep sep (f2 :: r2) = c :: cs
          have hcs : f ++ sep :: joinSep sep (f2 :: r2) = cs := ih
          simpa using hcs

/-! ## Rendering numbers

`decChars` models Go's `%d` (exact for values below 1000 — here it is only
applied to bytes and prefix lengths).  `hexMinChars` models Go's `%x`
(exact for values below 65536 — here it is only applied to 16-bit groups).
`hex2Chars` models Go's `%02x` on a byte value. -/

def decChars (n : Nat) : List Char :=
  if n < 10 then [decDigitChar n]
  else if n < 100 then [decDigitChar (n / 10), decDigitChar (n % 10)]
  else [decDigitChar (n / 100 % 10), decDigitChar (n / 10 % 10), decDigitChar (n % 10)]

def hexMinChars (g : Nat) : List Char :=
  if g < 16 then [hexDigitChar g]
  else if g < 256 then [hexDigitChar (g / 16), hexDigitChar (g % 16)]
  else if g < 4096 then
    [hexDigitChar (g / 256), hexDigitChar (g / 16 % 16), hexDigitChar (g % 16)]
  else
    [hexDigitChar (g / 4096 % 16), hexDigitChar (g / 256 % 16),
      hexDigitChar (g / 16 % 16), hexDigitChar (g % 16)]

def hex2Chars (n : Nat) : List Char := [hexDigitChar (n / 16), hexDigitChar (n % 16)]

theorem hexMinChars_ne_nil (g : Nat) : hexMinChars g ≠ [] := by
  unfold hexMinChars
  split_ifs <;> simp

/-! ## Field parsers

Models of the per-field parsing done by Go's `netip.ParseAddr`: an IPv4
field is one to three decimal digits without a leading zero, of value at
most 255; an IPv6 field is one to four hex digits (either case). -/

def parseV4Field (cs : List Char) : Option Nat :=
  if cs.length = 0 ∨ 3 < cs.length then none
  else if ¬ (cs.all fun c => (digitVal c).isSome) then none
  else if 1 < cs.length ∧ cs.head? = some '0' then none
  else if 255 < cs.foldl (fun a c => 10 * a + (digitVal c).getD 0) 0 then none
  else some (cs.foldl (fun a c => 10 * a + (digitVal c).getD 0) 0)

def parseHexField (cs : List Char) : Option Nat :=
  if cs.length = 0 ∨ 4 < cs.length then none
  else if cs.all fun c => (hexVal c).isSome then
    some (cs.foldl (fun a c => 16 * a + (hexVal c).getD 0) 0)
  else none

theorem parseV4Field_le {cs : List Char} {n : Nat} (h : parseV4Field cs = some n) :
    n ≤ 255 := by
  unfold parseV4Field at h
  split_ifs at h <;> try exact Option.noConfusion h
  injection h with h
  omega

theorem foldl16_bound : ∀ (cs : List Char) (a : Nat),
    (∀ c ∈ cs, (hexVal c).isSome) →
    cs.foldl (fun a c => 16 * a + (hexVal c).getD 0) a < 16 ^ cs.length * (a + 1) := by
  intro cs
  induction cs with
  | nil => intro a _; simpa using Nat.lt_succ_self a
  | cons c cs ih =>
    intro a hall
    have hc : (hexVal c).isSome := hall c (by simp)
    obtain ⟨d, hd⟩ := Option.isSome_iff_exists.mp hc
    have hdlt : d < 16 := hexVal_lt hd
    have step : (hexVal c).getD 0 = d := by rw [hd]; rfl
    have ihh := ih (16 * a + (hexVal c).getD 0) (fun x hx => hall x (by simp [hx]))
    calc List.foldl (fun a c => 16 * a + (hexVal c).getD 0) (16 * a + (hexVal c).getD 0) cs
        < 16 ^ cs.length * (16 * a + (hexVal c).getD 0 + 1) := ihh
      _ ≤ 16 ^ cs.length * (16 * (a + 1)) := by
          apply Nat.mul_le_mul_left
          rw [step]; omega
      _ = 16 ^ (cs.length + 1) * (a + 1) := by ring

theorem parseHexField_lt {cs : List Char} {n : Nat} (h : parseHexField cs = some n) :
    n < 65536 := by
  unfold parseHexField at h
  split_ifs at h with h1 h2 <;> try exact Option.noConfusion h
  injection h with h
  have hall : ∀ c ∈ cs, (hexVal c).isSome := by
    intro c hc
    exact List.all_eq_true.mp h2 c hc
  have hb := foldl16_bound cs 0 hall
  have hlen : cs.length ≤ 4 := by omega
  have : (16 : Nat) ^ cs.length ≤ 16 ^ 4 := Nat.pow_le_pow_right (by omega) hlen
  omega

theorem parseHex_hexMin {g : Nat} (hg : g < 65536) :
    parseHexField (hexMinChars g) = some g := by
  unfold hexMinChars
  split_ifs with h1 h2 h3
  · have e := hexVal_hexDigitChar g h1
    simp [parseHexField, e]
  · have e1 := hexVal_hexDigitChar (g / 16) (by omega)
    have e2 := hexVal_hexDigitChar (g % 16) (by omega)
    simp [parseHexField, e1, e2]
    omega
  · have e1 := hexVal_hexDigitChar (g / 256) (by omega)
    have e2 := hexVal_hexDigitChar (g / 16 % 16) (by omega)
    have e3 := hexVal_hexDigitChar (g % 16) (by omega)
    simp [parseHexField, e1, e2, e3]
    omega
  · have e1 := hexVal_hexDigitChar (g / 4096 % 16) (by omega)
    have e2 := hexVal_hexDigitChar (g / 256 % 16) (by omega)
    have e3 := hexVal_hexDigitChar (g / 16 % 16) (by omega)
    have e4 := hexVal_hexDigitChar (g % 16) (by omega)
    simp [parseHexField, e1, e2, e3, e4]
    omega

theorem parseHex_hex2_append {a b : Nat} (ha : a < 256) (hb : b < 256) :
    parseHexField (hex2Chars a ++ hex2Chars b) = some (256 * a + b) := by
  have e1 := hexVal_hexDigitChar (a / 16) (by omega)
  have e2 := hexVal_hexDigitChar (a % 16) (by omega)
  have e3 := hexVal_hexDigitChar (b / 16) (by omega)
  have e4 := hexVal_hexDigitChar (b % 16) (by omega)
  simp [hex2Chars, parseHexField, e1, e2, e3, e4]
  omega

theorem parseV4Field_decChars {n : Nat} (hn : n < 256) :
    parseV4Field (decChars n) = some n := by
  unfold decChars
  split_ifs with h1 h2
  · have e := digitVal_decDigitChar n h1
    simp [parseV4Field, e]
    omega
  · have e1 := digitVal_decDigitChar (n / 10) (by omega)
    have e2 := digitVal_decDigitChar (n % 10) (by omega)
    have hne := decDigitChar_ne_zero (d := n / 10) (by omega) (by omega)
    simp [parseV4Field, e1, e2, hne]
    omega
  · have e1 := digitVal_decDigitChar (n / 100 % 10) (by omega)
    have e2 := digitVal_decDigitChar (n / 10 % 10) (by omega)
    have e3 := digitVal_decDigitChar (n % 10) (by omega)
    have hne := decDigitChar_ne_zero (d := n / 100 % 10) (by omega) (by omega)
    simp [parseV4Field, e1, e2, e3, hne]
    omega

theorem parseV4Field_canon {cs : List Char} {n : Nat} (h : parseV4Field cs = some n) :
    cs = decChars n := by
  unfold parseV4Field at h
  split_ifs at h with h1 h2 h3 h4 <;> try exact Option.noConfusion h
  injection h with h
  rcases cs with _ | ⟨c1, _ | ⟨c2, _ | ⟨c3, _ | ⟨c4, rest⟩⟩⟩⟩
  · simp at h1
  · simp only [List.all_cons, List.all_nil, Bool.and_true] at h2
    obtain ⟨d1, hd1⟩ := Option.isSome_iff_exists.mp h2
    have hc1 := digitVal_canon hd1
    have hl1 := digitVal_lt hd1
    simp only [List.foldl_cons, List.foldl_nil, hd1, Option.getD_some] at h
    unfold decChars
    rw [if_pos (by omega)]
    rw [hc1]
    have e1 : n = d1 := by omega
    rw [e1]
  · simp only [List.all_cons, List.all_nil, Bool.and_true, Bool.and_eq_true] at h2
    obtain ⟨hs1, hs2⟩ := h2
    obtain ⟨d1, hd1⟩ := Option.isSome_iff_exists.mp hs1
    obtain ⟨d2, hd2⟩ := Option.isSome_iff_exists.mp hs2
    have hc1 := digitVal_canon hd1
    have hc2 := digitVal_canon hd2
    have hl1 := digitVal_lt hd1
    have hl2 := digitVal_lt hd2
    simp only [List.foldl_cons, List.foldl_nil, hd1, hd2, Option.getD_some] at h
    have hd1ne : d1 ≠ 0 := by
      intro h0
      apply h3
      refine ⟨by simp, ?_⟩
      rw [show (c1 :: [c2]).head? = some c1 from rfl, hc1, h0]
      rfl
    unfold decChars
    rw [if_neg (by omega), if_pos (by omega)]
    rw [hc1, hc2]
    have e1 : n / 10 = d1 := by omega
    have e2 : n % 10 = d2 := by omega
    rw [e1, e2]
  · simp only [List.all_cons, List.all_nil, Bool.and_true, Bool.and_eq_true] at h2
    obtain ⟨hs1, hs2, hs3⟩ := h2
    obtain ⟨d1, hd1⟩ := Option.isSome_iff_exists.mp hs1
    obtain ⟨d2, hd2⟩ := Option.isSome_iff_exists.mp hs2
    obtain ⟨d3, hd3⟩ := Option.isSome_iff_exists.mp hs3
    have hc1 := digitVal_canon hd1
    have hc2 := digitVal_canon hd2
    have hc3 := digitVal_canon hd3
    have hl1 := digitVal_lt hd1
    have hl2 := digitVal_lt hd2
    have hl3 := digitVal_lt hd3
    simp only [List.foldl_cons, List.foldl_nil, hd1, hd2, hd3, Option.getD_some] at h
    have hd1ne : d1 ≠ 0 := by
      intro h0
      apply h3
      refine ⟨by simp, ?_⟩
      rw [show (c1 :: [c2, c3]).head? = some c1 from rfl, hc1, h0]
      rfl
    unfold decChars
    rw [if_neg (by omega), if_neg (by omega)]
    rw [hc1, hc2, hc3]
    have e1 : n / 100 % 10 = d1 := by omega
    have e2 : n / 10 % 10 = d2 := by omega
    have e3 : n % 10 = d3 := by omega
    rw [e1, e2, e3]
  · simp at h1

/-! ## The address parser

Model of Go `net.ParseIP` (backed by `netip.ParseAddr`, with zoned input
rejected).  The result is `none` (Go: `nil`) or a 16-byte list: Go returns
the 16-byte `v4InV6` form for dotted-decimal IPv4 input. -/

def parseFieldsV4 : List (List Char) → Option (List Nat)
  | [] => some []
  | f :: fs =>
    match parseV4Field f, parseFieldsV4 fs with
    | some v, some vs => some (v :: vs)
    | _, _ => none

def parseIPv4Chars (cs : List Char) : Option (List Nat) :=
  match parseFieldsV4 (splitCh '.' cs) with
  | some [a, b, c, d] => some [a, b, c, d]
  | _ => none

def fieldBytes (g : Nat) : List Nat := [g / 256, g % 256]

/-- Parse colon-separated hex fields into bytes; the final field may be a
dotted-quad IPv4 tail (4 bytes), as in `64:ff9b::192.0.2.33`. -/
def parseMayV4 : List (List Char) → Option (List Nat)
  | [] => some []
  | [f] =>
    if '.' ∈ f then parseIPv4Chars f
    else
      match parseHexField f with
      | some g => some (fieldBytes g)
      | none => none
  | f :: fs =>
    match parseHexField f, parseMayV4 fs with
    | some g, some bs => some (fieldBytes g ++ bs)
    | _, _ => none

/-- Parse colon-separated hex fields into bytes, IPv4 tail not allowed
(the fields to the left of a `::` are never final). -/
def parseNoV4 : List (List Char) → Option (List Nat)
  | [] => some []
  | f :: fs =>
    match parseHexField f, parseNoV4 fs with
    | some g, some bs => some (fieldBytes g ++ bs)
    | _, _ => none

/-- Split a field list at its first empty field; `none` when all fields
are nonempty. -/
def findEmpty : List (List Char) → Option (List (List Char) × List (List Char))
  | [] => none
  | f :: fs =>
    if f = [] then some ([], fs)
    else
      match findEmpty fs with
      | some (l, r) => some (f :: l, r)
      | none => none

/-- Model of Go `netip` parsing of an IPv6 literal, producing 16 bytes.

The field-pattern analysis mirrors the sequential Go parser: at most one
`::`, which must abbreviate at least one whole group (so at most 14 bytes
may be spelled out next to it); an address without `::` must supply
exactly 16 bytes; a leading or trailing single colon is invalid.  A `%`
zone suffix never parses here (the `%` always lands inside a field and
fails digit parsing), matching `net.ParseIP`, which rejects zoned input. -/
def parseIPv6Chars (cs : List Char) : Option (List Nat) :=
  match findEmpty (splitCh ':' cs) with
  | none =>
    match parseMayV4 (splitCh ':' cs) with
    | some bs => if bs.length = 16 then some bs else none
    | none => none
  | some (left, right) =>
    match left, right with
    | [], [] :: [] => none
    | [], [] :: [[]] => some (List.replicate 16 0)
    | [], [] :: rest =>
      match findEmpty rest with
      | some _ => none
      | none =>
        match parseMayV4 rest with
        | some bs =>
          if bs.length ≤ 14 then some (List.replicate (16 - bs.length) 0 ++ bs) else none
        | none => none
    | _ :: _, [[]] =>
      match parseNoV4 left with
      | some bs =>
        if bs.length ≤ 14 then some (bs ++ List.replicate (16 - bs.length) 0) else none
      | none => none
    | _ :: _, f :: rest =>
      match findEmpty (f :: rest) with
      | some _ => none
      | none =>
        match parseNoV4 left, parseMayV4 (f :: rest) with
        | some bl, some br =>
          if bl.length + br.length ≤ 14
          then some (bl ++ List.replicate (16 - bl.length - br.length) 0 ++ br)
          else none
        | _, _ => none
    | _, _ => none

/-- First occurrence of `.`, `:` or `%`, driving `netip.ParseAddr`'s
dispatch between the IPv4 and IPv6 grammars. -/
def firstSpecial : List Char → Option Char
  | [] => none
  | c :: cs => if c = '.' ∨ c = ':' ∨ c = '%' then some c else firstSpecial cs

/-- The 16-byte form of an IPv4 address (`::ffff:a.b.c.d`), which
`net.ParseIP` returns for dotted-decimal input. -/
def v4InV6 (q : List Nat) : List Nat :=
  [0, 0, 0, 0, 0, 0, 0, 0, 0, 0, 255, 255] ++ q

/-- Model of Go `net.ParseIP` on the character list of the input string. -/
def parseIPChars (cs : List Char) : Option (List Nat) :=
  match firstSpecial cs with
  | some '.' =>
    match parseIPv4Chars cs with
    | some q => some (v4InV6 q)
    | none => none
  | some ':' => parseIPv6Chars cs
  | _ => none

/-! ## The address renderer

Model of Go `net.IP.String`: `"<nil>"` for empty, dotted-decimal for IPv4
and IPv4-mapped values, `"?"`-prefixed hex for irregular lengths, and
otherwise the RFC 5952 compressed form (lowercase minimal hex groups, `::`
for the leftmost-longest run of at least two zero groups). -/

/-- Model of Go `IP.To4`. -/
def to4 (b : List Nat) : Option (List Nat) :=
  if b.length = 4 then some b
  else if b.length = 16 ∧ ((b.take 10).all fun x => x == 0) ∧ b.getD 10 0 = 255 ∧ b.getD 11 0 = 255
  then some (b.drop 12)
  else none

/-- Model of Go `IP.To16`. -/
def to16 (b : List Nat) : Option (List Nat) :=
  if b.length = 4 then some (v4InV6 b)
  else if b.length = 16 then some b
  else none

/-- The eight 16-bit groups of a 16-byte value (`b[2i]<<8 | b[2i+1]`). -/
def groupsOf (b : List Nat) : List Nat :=
  (List.range 8).map fun i => 256 * b.getD (2 * i) 0 + b.getD (2 * i + 1) 0

/-- Big-endian bytes of a group list (inverse of `groupsOf` on 16-byte values). -/
def groupBytes : List Nat → List Nat
  | [] => []
  | g :: gs => fieldBytes g ++ groupBytes gs

/-- Length of the zero-group run starting at index `i`. -/
def runLenAt (gs : List Nat) (i : Nat) : Nat :=
  ((gs.drop i).takeWhile fun g => g == 0).length

def zeroRunStep (gs : List Nat) (best : Option (Nat × Nat)) (i : Nat) : Option (Nat × Nat) :=
  match best with
  | none => if 2 ≤ runLenAt gs i then some (i, runLenAt gs i) else none
  | some (s, l) => if l < runLenAt gs i then some (i, runLenAt gs i) else some (s, l)

/-- Leftmost-longest run of at least two zero groups (the `::` placement
rule of RFC 5952 as implemented by Go). -/
def zeroRun (gs : List Nat) : Option (Nat × Nat) :=
  (List.range gs.length).foldl (zeroRunStep gs) none

def v4DottedChars (q : List Nat) : List Char := joinSep '.' (q.map decChars)

def v6StringChars (gs : List Nat) : List Char :=
  match zeroRun gs with
  | none => joinSep ':' (gs.map hexMinChars)
  | some (i, l) =>
    joinSep ':' ((gs.take i).map hexMinChars) ++ ':' :: ':' ::
      joinSep ':' ((gs.drop (i + l)).map hexMinChars)

/-- Byte hex dump used by Go for irregular lengths (`"?" + hexString(ip)`). -/
def hexPlainChars : List Nat → List Char
  | [] => []
  | x :: xs => hex2Chars x ++ hexPlainChars xs

/-- Model of Go `net.IP.String` (on character lists). -/
def ipStringChars (b : List Nat) : List Char :=
  if b.length = 0 then ['<', 'n', 'i', 'l', '>']
  else if b.length ≠ 4 ∧ b.length ≠ 16 then '?' :: hexPlainChars b
  else
    match to4 b with
    | some q => v4DottedChars q
    | none => v6StringChars (groupsOf b)

/-! ## Supporting lemmas for the parse/render round trip -/

theorem mem_decChars {c : Char} {n : Nat} (h : c ∈ decChars n) :
    ∃ d, d < 10 ∧ c = decDigitChar d := by
  unfold decChars at h
  split_ifs at h <;> simp only [List.mem_cons, List.mem_singleton, List.not_mem_nil] at h <;>
    rcases h with h | h | h | h <;> first
      | exact absurd h (by simp)
      | exact ⟨_, by omega, h⟩

theorem mem_hexMinChars {c : Char} {g : Nat} (h : c ∈ hexMinChars g) :
    ∃ d, d < 16 ∧ c = hexDigitChar d := by
  unfold hexMinChars at h
  split_ifs at h <;> simp only [List.mem_cons, List.mem_singleton, List.not_mem_nil] at h <;>
    rcases h with h | h | h | h | h <;> first
      | exact absurd h (by simp)
      | exact ⟨_, by omega, h⟩

theorem hexDigitChar_not_special : ∀ d : Nat, d < 16 →
    ¬(hexDigitChar d = '.' ∨ hexDigitChar d = ':' ∨ hexDigitChar d = '%') := by
  decide

theorem decDigitChar_not_special : ∀ d : Nat, d < 10 →
    ¬(decDigitChar d = '.' ∨ decDigitChar d = ':' ∨ decDigitChar d = '%') := by
  decide

theorem hexMinChars_no_colon {g : Nat} : ':' ∉ hexMinChars g := by
  intro h
  obtain ⟨d, hd, he⟩ := mem_hexMinChars h
  exact hexDigitChar_not_special d hd (Or.inr (Or.inl he.symm))

theorem hexMinChars_no_dot {g : Nat} : '.' ∉ hexMinChars g := by
  intro h
  obtain ⟨d, hd, he⟩ := mem_hexMinChars h
  exact hexDigitChar_not_special d hd (Or.inl he.symm)

theorem decChars_no_dot {n : Nat} : '.' ∉ decChars n := by
  intro h
  obtain ⟨d, hd, he⟩ := mem_decChars h
  exact decDigitChar_not_special d hd (Or.inl he.symm)

theorem findEmpty_all_ne {fs : List (List Char)} (h : ∀ f ∈ fs, f ≠ []) :
    findEmpty fs = none := by
  induction fs with
  | nil => rfl
  | cons f fs ih =>
    unfold findEmpty
    rw [if_neg (h f (by simp)), ih (fun x hx => h x (List.mem_cons_of_mem f hx))]

theorem findEmpty_append {l r : List (List Char)} (h : ∀ f ∈ l, f ≠ []) :
    findEmpty (l ++ [] :: r) = some (l, r) := by
  induction l with
  | nil => simp [findEmpty]
  | cons f fs ih =>
    show findEmpty (f :: (fs ++ [] :: r)) = some (f :: fs, r)
    unfold findEmpty
    rw [if_neg (h f (by simp)), ih (fun x hx => h x (List.mem_cons_of_mem f hx))]

theorem groupBytes_append (gs hs : List Nat) :
    groupBytes (gs ++ hs) = groupBytes gs ++ groupBytes hs := by
  induction gs with
  | nil => rfl
  | cons g gs ih => simp [groupBytes, ih]

theorem groupBytes_length (gs : List Nat) : (groupBytes gs).length = 2 * gs.length := by
  induction gs with
  | nil => rfl
  | cons g gs ih => simp [groupBytes, fieldBytes, ih]; omega

theorem groupBytes_replicate_zero (n : Nat) :
    groupBytes (List.replicate n 0) = List.replicate (2 * n) 0 := by
  induction n with
  | zero => rfl
  | succ n ih =>
    rw [List.replicate_succ, groupBytes, ih, fieldBytes]
    rw [show (2 * (n + 1)) = (2 * n) + 1 + 1 by omega]
    rw [List.replicate_succ, List.replicate_succ]
    simp [Nat.zero_div]

theorem groupBytes_bounds {gs : List Nat} (h : ∀ g ∈ gs, g < 65536) :
    ∀ x ∈ groupBytes gs, x < 256 := by
  induction gs with
  | nil => simp [groupBytes]
  | cons g gs ih =>
    intro x hx
    simp only [groupBytes, fieldBytes, List.mem_append, List.mem_cons,
      List.mem_singleton, List.not_mem_nil] at hx
    have hg := h g (by simp)
    rcases hx with (h1 | h1 | h1) | h1
    · subst h1; omega
    · subst h1; omega
    · exact absurd h1 (by simp)
    · exact ih (fun y hy => h y (List.mem_cons_of_mem g hy)) x h1

theorem list16_of_length {α : Type} {b : List α} (h : b.length = 16) :
    ∃ a0 a1 a2 a3 a4 a5 a6 a7 a8 a9 a10 a11 a12 a13 a14 a15,
      b = [a0, a1, a2, a3, a4, a5, a6, a7, a8, a9, a10, a11, a12, a13, a14, a15] := by
  rcases b with _ | ⟨a0, _ | ⟨a1, _ | ⟨a2, _ | ⟨a3, _ | ⟨a4, _ | ⟨a5, _ | ⟨a6, _ | ⟨a7, _ | ⟨a8, _ | ⟨a9, _ | ⟨a10, _ | ⟨a11, _ | ⟨a12, _ | ⟨a13, _ | ⟨a14, _ | ⟨a15, _ | ⟨a16, t⟩⟩⟩⟩⟩⟩⟩⟩⟩⟩⟩⟩⟩⟩⟩⟩⟩ <;>
    first
      | exact ⟨a0, a1, a2, a3, a4, a5, a6, a7, a8, a9, a10, a11, a12, a13, a14, a15, rfl⟩
      | (exfalso; simp only [List.length_cons, List.length_nil] at h; omega)

theorem getD_lt_of_all_lt {b : List Nat} {m : Nat} (h : ∀ x ∈ b, x < m) (hm : 0 < m)
    (i : Nat) : b.getD i 0 < m := by
  induction b generalizing i with
  | nil => simpa [List.getD] using hm
  | cons x xs ih =>
    cases i with
    | zero => exact h x (by simp)
    | succ j =>
      show xs.getD j 0 < m
      exact ih (fun y hy => h y (List.mem_cons_of_mem x hy)) j

theorem groupsOf_lt {b : List Nat} (h : ∀ x ∈ b, x < 256) :
    ∀ g ∈ groupsOf b, g < 65536 := by
  intro g hg
  unfold groupsOf at hg
  simp only [List.mem_map, List.mem_range] at hg
  obtain ⟨i, _, rfl⟩ := hg
  have h1 := getD_lt_of_all_lt h (by omega) (2 * i)
  have h2 := getD_lt_of_all_lt h (by omega) (2 * i + 1)
  omega

theorem parseNoV4_map_hexMin (gs : List Nat) (h : ∀ g ∈ gs, g < 65536) :
    parseNoV4 (gs.map hexMinChars) = some (groupBytes gs) := by
  induction gs with
  | nil => rfl
  | cons g gs ih =>
    have hg := parseHex_hexMin (h g (by simp))
    have ihh := ih (fun x hx => h x (List.mem_cons_of_mem g hx))
    simp only [List.map_cons, parseNoV4, hg, ihh]
    rfl

theorem parseMayV4_map_hexMin (gs : List Nat) (h : ∀ g ∈ gs, g < 65536) :
    parseMayV4 (gs.map hexMinChars) = some (groupBytes gs) := by
  induction gs with
  | nil => rfl
  | cons g gs ih =>
    cases gs with
    | nil =>
      have hg := parseHex_hexMin (h g (by simp))
      simp only [List.map_cons, List.map_nil, parseMayV4,
        if_neg (hexMinChars_no_dot (g := g)), hg]
      simp [groupBytes]
    | cons g2 gs2 =>
      have hg := parseHex_hexMin (h g (by simp))
      have ihh := ih (fun x hx => h x (List.mem_cons_of_mem g hx))
      simp only [List.map_cons] at ihh ⊢
      simp only [parseMayV4, hg, ihh]
      rfl

theorem foldl_invariant {α β : Type} {P : β → Prop} (f : β → α → β) (l : List α) (init : β)
    (h0 : P init) (hstep : ∀ acc x, P acc → P (f acc x)) : P (l.foldl f init) := by
  induction l generalizing init with
  | nil => exact h0
  | cons x xs ih => exact ih _ (hstep _ _ h0)

theorem zeroRunStep_valid {gs : List Nat} {acc : Option (Nat × Nat)} {x : Nat}
    (hacc : ∀ i2 l2, acc = some (i2, l2) → 2 ≤ l2 ∧ l2 = runLenAt gs i2)
    {i2 l2 : Nat} (hc : zeroRunStep gs acc x = some (i2, l2)) :
    2 ≤ l2 ∧ l2 = runLenAt gs i2 := by
  cases acc with
  | none =>
    simp only [zeroRunStep] at hc
    split_ifs at hc with h2
    injection hc with hc
    rw [Prod.mk.injEq] at hc
    obtain ⟨hA, hB⟩ := hc
    subst hA
    subst hB
    exact ⟨h2, rfl⟩
  | some p =>
    obtain ⟨s, bl⟩ := p
    simp only [zeroRunStep] at hc
    split_ifs at hc with h2
    · injection hc with hc
      rw [Prod.mk.injEq] at hc
      obtain ⟨hA, hB⟩ := hc
      subst hA
      subst hB
      obtain ⟨hx, hy⟩ := hacc s bl rfl
      exact ⟨by omega, rfl⟩
    · injection hc with hc
      rw [Prod.mk.injEq] at hc
      obtain ⟨hA, hB⟩ := hc
      subst hA
      subst hB
      exact hacc _ _ rfl

theorem zeroRun_valid {gs : List Nat} {i l : Nat} (h : zeroRun gs = some (i, l)) :
    2 ≤ l ∧ l = runLenAt gs i := by
  unfold zeroRun at h
  have hP := foldl_invariant (P := fun o : Option (Nat × Nat) =>
      ∀ i2 l2, o = some (i2, l2) → 2 ≤ l2 ∧ l2 = runLenAt gs i2)
    (zeroRunStep gs) (List.range gs.length) none
    (by intro i2 l2 hc; exact Option.noConfusion hc)
    (by intro acc x hacc i2 l2 hc; exact zeroRunStep_valid hacc hc)
  exact hP i l h

theorem runLenAt_le (gs : List Nat) (i : Nat) : runLenAt gs i ≤ gs.length - i := by
  unfold runLenAt
  have h1 := (List.takeWhile_prefix (fun g : Nat => g == 0) (l := gs.drop i)).length_le
  simpa using h1

theorem runLenAt_zeros (gs : List Nat) (i : Nat) :
    (gs.drop i).take (runLenAt gs i) = List.replicate (runLenAt gs i) 0 := by
  unfold runLenAt
  have hp := List.takeWhile_prefix (fun g : Nat => g == 0) (l := gs.drop i)
  have heq := List.prefix_iff_eq_take.mp hp
  rw [← heq]
  refine List.eq_replicate.mpr ⟨rfl, ?_⟩
  intro x hx
  have := List.mem_takeWhile_imp hx
  simpa using this

theorem zeroRun_decomp {gs : List Nat} {i l : Nat} (h : zeroRun gs = some (i, l)) :
    gs = gs.take i ++ List.replicate l 0 ++ gs.drop (i + l) ∧
      2 ≤ l ∧ i + l ≤ gs.length ∧ i < gs.length := by
  obtain ⟨h2, hrl⟩ := zeroRun_valid h
  subst hrl
  have hle := runLenAt_le gs i
  have hzs := runLenAt_zeros gs i
  have hilen : i < gs.length := by
    by_contra hni
    have hdrop : gs.drop i = [] := List.drop_eq_nil_of_le (by omega)
    unfold runLenAt at h2
    rw [hdrop] at h2
    simp at h2
  refine ⟨?_, h2, by omega, hilen⟩
  have hd : gs.drop i = List.replicate (runLenAt gs i) 0 ++ gs.drop (i + runLenAt gs i) := by
    conv_lhs => rw [← List.take_append_drop (runLenAt gs i) (gs.drop i)]
    rw [hzs, List.drop_drop]
  calc gs = gs.take i ++ gs.drop i := (List.take_append_drop i gs).symm
    _ = gs.take i ++ (List.replicate (runLenAt gs i) 0 ++ gs.drop (i + runLenAt gs i)) := by
        rw [hd]
    _ = gs.take i ++ List.replicate (runLenAt gs i) 0 ++ gs.drop (i + runLenAt gs i) := by
        rw [List.append_assoc]

theorem groupBytes_groupsOf {b : List Nat} (hlen : b.length = 16) (hlt : ∀ x ∈ b, x < 256) :
    groupBytes (groupsOf b) = b := by
  obtain ⟨a0, a1, a2, a3, a4, a5, a6, a7, a8, a9, a10, a11, a12, a13, a14, a15, rfl⟩ :=
    list16_of_length hlen
  have e1 : a1 < 256 := hlt a1 (by simp)
  have e3 : a3 < 256 := hlt a3 (by simp)
  have e5 : a5 < 256 := hlt a5 (by simp)
  have e7 : a7 < 256 := hlt a7 (by simp)
  have e9 : a9 < 256 := hlt a9 (by simp)
  have e11 : a11 < 256 := hlt a11 (by simp)
  have e13 : a13 < 256 := hlt a13 (by simp)
  have e15 : a15 < 256 := hlt a15 (by simp)
  have hg : groupsOf [a0, a1, a2, a3, a4, a5, a6, a7, a8, a9, a10, a11, a12, a13, a14, a15]
      = [256 * a0 + a1, 256 * a2 + a3, 256 * a4 + a5, 256 * a6 + a7,
         256 * a8 + a9, 256 * a10 + a11, 256 * a12 + a13, 256 * a14 + a15] := rfl
  rw [hg]
  simp only [groupBytes, fieldBytes, List.cons_append, List.nil_append, List.cons.injEq,
    and_true]
  omega

theorem hexMin_nonspecial {g : Nat} :
    ∀ c ∈ hexMinChars g, ¬(c = '.' ∨ c = ':' ∨ c = '%') := by
  intro c hc
  obtain ⟨d, hd, rfl⟩ := mem_hexMinChars hc
  exact hexDigitChar_not_special d hd

theorem decChars_nonspecial {n : Nat} :
    ∀ c ∈ decChars n, ¬(c = '.' ∨ c = ':' ∨ c = '%') := by
  intro c hc
  obtain ⟨d, hd, rfl⟩ := mem_decChars hc
  exact decDigitChar_not_special d hd

theorem firstSpecial_cons (c : Char) (cs : List Char) :
    firstSpecial (c :: cs) =
      if c = '.' ∨ c = ':' ∨ c = '%' then some c else firstSpecial cs := by
  simp only [firstSpecial]

theorem firstSpecial_append_nonspecial {A B : List Char}
    (h : ∀ c ∈ A, ¬(c = '.' ∨ c = ':' ∨ c = '%')) :
    firstSpecial (A ++ B) = firstSpecial B := by
  induction A with
  | nil => rfl
  | cons c cs ih =>
    show firstSpecial (c :: (cs ++ B)) = firstSpecial B
    rw [firstSpecial_cons, if_neg (h c (by simp))]
    exact ih (fun x hx => h x (List.mem_cons_of_mem c hx))

theorem firstSpecial_field_colon {A B : List Char}
    (h : ∀ c ∈ A, ¬(c = '.' ∨ c = ':' ∨ c = '%')) :
    firstSpecial (A ++ ':' :: B) = some ':' := by
  rw [firstSpecial_append_nonspecial h, firstSpecial_cons, if_pos (by simp)]

theorem firstSpecial_field_dot {A B : List Char}
    (h : ∀ c ∈ A, ¬(c = '.' ∨ c = ':' ∨ c = '%')) :
    firstSpecial (A ++ '.' :: B) = some '.' := by
  rw [firstSpecial_append_nonspecial h, firstSpecial_cons, if_pos (by simp)]

theorem decChars_ne_nil (n : Nat) : decChars n ≠ [] := by
  unfold decChars
  split_ifs <;> simp

theorem parseIPv4_v4Dotted {a b c d : Nat} (ha : a < 256) (hb : b < 256) (hc : c < 256)
    (hd : d < 256) :
    parseIPv4Chars (v4DottedChars [a, b, c, d]) = some [a, b, c, d] := by
  unfold parseIPv4Chars v4DottedChars
  rw [splitCh_joinSep (by simp)
    (by
      intro f hf
      simp only [List.map_cons, List.map_nil, List.mem_cons, List.mem_singleton,
        List.not_mem_nil] at hf
      rcases hf with rfl | rfl | rfl | rfl | hf
      · exact decChars_no_dot
      · exact decChars_no_dot
      · exact decChars_no_dot
      · exact decChars_no_dot
      · exact absurd hf (by simp))]
  simp only [List.map_cons, List.map_nil, parseFieldsV4, parseV4Field_decChars ha,
    parseV4Field_decChars hb, parseV4Field_decChars hc, parseV4Field_decChars hd]

theorem parseFieldsV4_canon {fs : List (List Char)} {vs : List Nat}
    (h : parseFieldsV4 fs = some vs) :
    fs = vs.map decChars ∧ ∀ v ∈ vs, v ≤ 255 := by
  induction fs generalizing vs with
  | nil =>
    unfold parseFieldsV4 at h
    injection h with h
    subst h
    exact ⟨rfl, by simp⟩
  | cons f fs ih =>
    unfold parseFieldsV4 at h
    split at h
    · rename_i v vs2 hv hvs
      injection h with h
      subst h
      obtain ⟨hmap, hle⟩ := ih hvs
      refine ⟨?_, ?_⟩
      · simp only [List.map_cons]
        rw [← hmap, parseV4Field_canon hv]
      · intro x hx
        rcases List.mem_cons.mp hx with rfl | hx
        · exact parseV4Field_le hv
        · exact hle x hx
    · exact Option.noConfusion h

theorem parseIPv4Chars_canon {cs : List Char} {q : List Nat}
    (h : parseIPv4Chars cs = some q) :
    cs = v4DottedChars q ∧ q.length = 4 ∧ ∀ v ∈ q, v ≤ 255 := by
  unfold parseIPv4Chars at h
  split at h
  · rename_i a b c d hfs
    injection h with h
    subst h
    obtain ⟨hmap, hle⟩ := parseFieldsV4_canon hfs
    refine ⟨?_, rfl, hle⟩
    have := joinSep_splitCh '.' cs
    rw [hmap] at this
    unfold v4DottedChars
    exact this.symm
  · exact Option.noConfusion h

theorem parseFieldsV4_length {fs : List (List Char)} {vs : List Nat}
    (h : parseFieldsV4 fs = some vs) : vs.length = fs.length := by
  induction fs generalizing vs with
  | nil =>
    unfold parseFieldsV4 at h
    injection h with h
    subst h
    rfl
  | cons f fs ih =>
    unfold parseFieldsV4 at h
    split at h
    · rename_i v vs2 hv hvs
      injection h with h
      subst h
      simp [ih hvs]
    · exact Option.noConfusion h

theorem parseIPv4Chars_bounds {cs : List Char} {q : List Nat}
    (h : parseIPv4Chars cs = some q) : ∀ v ∈ q, v < 256 := by
  obtain ⟨_, _, hle⟩ := parseIPv4Chars_canon h
  intro v hv
  have := hle v hv
  omega

theorem parseIPv4Chars_length {cs : List Char} {q : List Nat}
    (h : parseIPv4Chars cs = some q) : q.length = 4 :=
  (parseIPv4Chars_canon h).2.1

theorem parseNoV4_bounds {fs : List (List Char)} {bs : List Nat}
    (h : parseNoV4 fs = some bs) : ∀ x ∈ bs, x < 256 := by
  induction fs generalizing bs with
  | nil =>
    unfold parseNoV4 at h
    injection h with h
    subst h
    simp
  | cons f fs ih =>
    unfold parseNoV4 at h
    split at h
    · rename_i g bs2 hg hbs
      injection h with h
      subst h
      intro x hx
      rcases List.mem_append.mp hx with hx | hx
      · have hglt := parseHexField_lt hg
        simp only [fieldBytes, List.mem_cons, List.mem_singleton, List.not_mem_nil] at hx
        rcases hx with rfl | rfl | hx
        · omega
        · omega
        · exact absurd hx (by simp)
      · exact ih hbs x hx
    · exact Option.noConfusion h

theorem parseMayV4_bounds {fs : List (List Char)} {bs : List Nat}
    (h : parseMayV4 fs = some bs) : ∀ x ∈ bs, x < 256 := by
  induction fs generalizing bs with
  | nil =>
    unfold parseMayV4 at h
    injection h with h
    subst h
    simp
  | cons f fs ih =>
    cases fs with
    | nil =>
      unfold parseMayV4 at h
      split_ifs at h with hdot
      · exact parseIPv4Chars_bounds h
      · split at h
        · rename_i g hg
          injection h with h
          subst h
          intro x hx
          have hglt := parseHexField_lt hg
          simp only [fieldBytes, List.mem_cons, List.mem_singleton, List.not_mem_nil] at hx
          rcases hx with rfl | rfl | hx
          · omega
          · omega
          · exact absurd hx (by simp)
        · exact Option.noConfusion h
    | cons f2 fs2 =>
      rw [show parseMayV4 (f :: f2 :: fs2) =
        (match parseHexField f, parseMayV4 (f2 :: fs2) with
          | some g, some bs => some (fieldBytes g ++ bs)
          | _, _ => none) from rfl] at h
      split at h
      · rename_i g bs2 hg hbs
        injection h with h
        subst h
        intro x hx
        rcases List.mem_append.mp hx with hx | hx
        · have hglt := parseHexField_lt hg
          simp only [fieldBytes, List.mem_cons, List.mem_singleton, List.not_mem_nil] at hx
          rcases hx with rfl | rfl | hx
          · omega
          · omega
          · exact absurd hx (by simp)
        · exact ih hbs x hx
      · exact Option.noConfusion h

theorem parseIPv6Chars_length {cs : List Char} {b : List Nat}
    (h : parseIPv6Chars cs = some b) : b.length = 16 := by
  unfold parseIPv6Chars at h
  split at h
  · split at h
    · split_ifs at h with hl
      injection h with h
      subst h
      exact hl
    · exact Option.noConfusion h
  · split at h <;> try exact Option.noConfusion h
    · injection h with h
      subst h
      simp
    · split at h
      · exact Option.noConfusion h
      · split at h
        · split_ifs at h with hl
          injection h with h
          subst h
          simp only [List.length_append, List.length_replicate]
          omega
        · exact Option.noConfusion h
    · split at h
      · split_ifs at h with hl
        injection h with h
        subst h
        simp only [List.length_append, List.length_replicate]
        omega
      · exact Option.noConfusion h
    · split at h
      · exact Option.noConfusion h
      · split at h
        · rename_i bl br hbl hbr
          split_ifs at h with hl
          injection h with h
          subst h
          simp only [List.length_append, List.length_replicate]
          omega
        · exact Option.noConfusion h

theorem parseIPv6Chars_bounds {cs : List Char} {b : List Nat}
    (h : parseIPv6Chars cs = some b) : ∀ x ∈ b, x < 256 := by
  unfold parseIPv6Chars at h
  split at h
  · split at h
    · rename_i bs hbs
      split_ifs at h with hl
      injection h with h
      subst h
      exact parseMayV4_bounds hbs
    · exact Option.noConfusion h
  · split at h <;> try exact Option.noConfusion h
    · injection h with h
      subst h
      simp
    · split at h
      · exact Option.noConfusion h
      · split at h
        · rename_i bs hbs
          split_ifs at h with hl
          injection h with h
          subst h
          intro x hx
          rcases List.mem_append.mp hx with hx | hx
          · simp only [List.mem_replicate] at hx
            omega
          · exact parseMayV4_bounds hbs x hx
        · exact Option.noConfusion h
    · split at h
      · rename_i bs hbs
        split_ifs at h with hl
        injection h with h
        subst h
        intro x hx
        rcases List.mem_append.mp hx with hx | hx
        · exact parseNoV4_bounds hbs x hx
        · simp only [List.mem_replicate] at hx
          omega
      · exact Option.noConfusion h
    · split at h
      · exact Option.noConfusion h
      · split at h
        · rename_i bl br hbl hbr
          split_ifs at h with hl
          injection h with h
          subst h
          intro x hx
          rcases List.mem_append.mp hx with hx | hx
          · rcases List.mem_append.mp hx with hx | hx
            · exact parseNoV4_bounds hbl x hx
            · simp only [List.mem_replicate] at hx
              omega
          · exact parseMayV4_bounds hbr x hx
        · exact Option.noConfusion h

theorem parseIPChars_length {cs : List Char} {b : List Nat}
    (h : parseIPChars cs = some b) : b.length = 16 := by
  unfold parseIPChars at h
  split at h <;> try exact Option.noConfusion h
  · split at h
    · rename_i q hq
      injection h with h
      subst h
      have := parseIPv4Chars_length hq
      simp [v4InV6, this]
    · exact Option.noConfusion h
  · exact parseIPv6Chars_length h

theorem parseIPChars_bounds {cs : List Char} {b : List Nat}
    (h : parseIPChars cs = some b) : ∀ x ∈ b, x < 256 := by
  unfold parseIPChars at h
  split at h <;> try exact Option.noConfusion h
  · split at h
    · rename_i q hq
      injection h with h
      subst h
      intro x hx
      unfold v4InV6 at hx
      rcases List.mem_append.mp hx with hx | hx
      · simp only [List.mem_cons, List.mem_singleton, List.not_mem_nil] at hx
        rcases hx with rfl | rfl | rfl | rfl | rfl | rfl | rfl | rfl | rfl | rfl | rfl | rfl | hx
        all_goals first
          | omega
          | exact absurd hx (by simp)
      · exact parseIPv4Chars_bounds hq x hx
    · exact Option.noConfusion h
  · exact parseIPv6Chars_bounds h

theorem map_hexMin_ne_nil_fields {gs : List Nat} :
    ∀ f ∈ gs.map hexMinChars, f ≠ [] := by
  intro f hf
  simp only [List.mem_map] at hf
  obtain ⟨g, _, rfl⟩ := hf
  exact hexMinChars_ne_nil g

theorem map_hexMin_colon_free {gs : List Nat} :
    ∀ f ∈ gs.map hexMinChars, ':' ∉ f := by
  intro f hf
  simp only [List.mem_map] at hf
  obtain ⟨g, _, rfl⟩ := hf
  exact hexMinChars_no_colon

theorem parse_leading_abbrev {rg : List Nat} (hne : rg ≠ []) (hlt : ∀ g ∈ rg, g < 65536)
    (hle : 2 * rg.length ≤ 14) :
    parseIPv6Chars (':' :: ':' :: joinSep ':' (rg.map hexMinChars))
      = some (List.replicate (16 - 2 * rg.length) 0 ++ groupBytes rg) := by
  obtain ⟨g1, rgt, rfl⟩ : ∃ g1 rgt, rg = g1 :: rgt := by
    cases rg with
    | nil => exact absurd rfl hne
    | cons g1 rgt => exact ⟨g1, rgt, rfl⟩
  have hsplit : splitCh ':' (':' :: ':' :: joinSep ':' ((g1 :: rgt).map hexMinChars))
      = [] :: [] :: (g1 :: rgt).map hexMinChars := by
    rw [splitCh_cons_sepCase, splitCh_cons_sepCase,
      splitCh_joinSep (by simp) map_hexMin_colon_free]
  obtain ⟨c1, f1, hf1⟩ : ∃ c1 f1, hexMinChars g1 = c1 :: f1 := by
    cases hx : hexMinChars g1 with
    | nil => exact absurd hx (hexMinChars_ne_nil g1)
    | cons c1 f1 => exact ⟨c1, f1, rfl⟩
  have hfe : findEmpty ([] :: [] :: (g1 :: rgt).map hexMinChars)
      = some ([], [] :: (g1 :: rgt).map hexMinChars) := by
    unfold findEmpty
    rw [if_pos rfl]
  unfold parseIPv6Chars
  rw [hsplit, hfe]
  simp only [List.map_cons, hf1]
  rw [show (c1 :: f1) :: List.map hexMinChars rgt = List.map hexMinChars (g1 :: rgt) by
    rw [List.map_cons, hf1]]
  rw [findEmpty_all_ne map_hexMin_ne_nil_fields]
  rw [parseMayV4_map_hexMin _ hlt]
  show (if (groupBytes (g1 :: rgt)).length ≤ 14
      then some (List.replicate (16 - (groupBytes (g1 :: rgt)).length) 0 ++ groupBytes (g1 :: rgt))
      else none)
    = some (List.replicate (16 - 2 * (g1 :: rgt).length) 0 ++ groupBytes (g1 :: rgt))
  rw [groupBytes_length]
  rw [if_pos (by simpa using hle)]

theorem parse_trailing_abbrev {lg : List Nat} (hne : lg ≠ []) (hlt : ∀ g ∈ lg, g < 65536)
    (hle : 2 * lg.length ≤ 14) :
    parseIPv6Chars (joinSep ':' (lg.map hexMinChars) ++ [':', ':'])
      = some (groupBytes lg ++ List.replicate (16 - 2 * lg.length) 0) := by
  obtain ⟨g1, lgt, rfl⟩ : ∃ g1 lgt, lg = g1 :: lgt := by
    cases lg with
    | nil => exact absurd rfl hne
    | cons g1 lgt => exact ⟨g1, lgt, rfl⟩
  have hsc : splitCh ':' [':'] = [[], []] := by
    rw [splitCh_cons_sepCase]
    rfl
  have hsplit : splitCh ':' (joinSep ':' ((g1 :: lgt).map hexMinChars) ++ [':', ':'])
      = (g1 :: lgt).map hexMinChars ++ [[], []] := by
    rw [show ([':', ':'] : List Char) = ':' :: [':'] from rfl]
    rw [splitCh_joinSep_append (by simp) map_hexMin_colon_free, hsc]
  have hfe : findEmpty ((g1 :: lgt).map hexMinChars ++ [[], []])
      = some ((g1 :: lgt).map hexMinChars, [[]]) := by
    rw [show ([[], []] : List (List Char)) = [] :: [[]] from rfl]
    exact findEmpty_append map_hexMin_ne_nil_fields
  obtain ⟨c1, f1, hf1⟩ : ∃ c1 f1, hexMinChars g1 = c1 :: f1 := by
    cases hx : hexMinChars g1 with
    | nil => exact absurd hx (hexMinChars_ne_nil g1)
    | cons c1 f1 => exact ⟨c1, f1, rfl⟩
  unfold parseIPv6Chars
  rw [hsplit, hfe]
  simp only [List.map_cons, hf1]
  rw [show (c1 :: f1) :: List.map hexMinChars lgt = List.map hexMinChars (g1 :: lgt) by
    rw [List.map_cons, hf1]]
  rw [parseNoV4_map_hexMin _ hlt]
  show (if (groupBytes (g1 :: lgt)).length ≤ 14
      then some (groupBytes (g1 :: lgt) ++ List.replicate (16 - (groupBytes (g1 :: lgt)).length) 0)
      else none)
    = some (groupBytes (g1 :: lgt) ++ List.replicate (16 - 2 * (g1 :: lgt).length) 0)
  rw [groupBytes_length]
  rw [if_pos (by simpa using hle)]

theorem parse_middle_abbrev {lg rg : List Nat} (hneL : lg ≠ []) (hneR : rg ≠ [])
    (hltL : ∀ g ∈ lg, g < 65536) (hltR : ∀ g ∈ rg, g < 65536)
    (hle : 2 * lg.length + 2 * rg.length ≤ 14) :
    parseIPv6Chars (joinSep ':' (lg.map hexMinChars) ++ ':' :: ':' ::
        joinSep ':' (rg.map hexMinChars))
      = some (groupBytes lg ++ List.replicate (16 - 2 * lg.length - 2 * rg.length) 0 ++
          groupBytes rg) := by
  obtain ⟨g1, lgt, rfl⟩ : ∃ g1 lgt, lg = g1 :: lgt := by
    cases lg with
    | nil => exact absurd rfl hneL
    | cons g1 lgt => exact ⟨g1, lgt, rfl⟩
  obtain ⟨g2, rgt, rfl⟩ : ∃ g2 rgt, rg = g2 :: rgt := by
    cases rg with
    | nil => exact absurd rfl hneR
    | cons g2 rgt => exact ⟨g2, rgt, rfl⟩
  have hsplit : splitCh ':' (joinSep ':' ((g1 :: lgt).map hexMinChars) ++ ':' :: ':' ::
        joinSep ':' ((g2 :: rgt).map hexMinChars))
      = (g1 :: lgt).map hexMinChars ++ [] :: (g2 :: rgt).map hexMinChars := by
    rw [splitCh_joinSep_append (by simp) map_hexMin_colon_free]
    rw [splitCh_cons_sepCase]
    rw [splitCh_joinSep (by simp) map_hexMin_colon_free]
  have hfe : findEmpty ((g1 :: lgt).map hexMinChars ++ [] :: (g2 :: rgt).map hexMinChars)
      = some ((g1 :: lgt).map hexMinChars, (g2 :: rgt).map hexMinChars) :=
    findEmpty_append map_hexMin_ne_nil_fields
  obtain ⟨c1, f1, hf1⟩ : ∃ c1 f1, hexMinChars g1 = c1 :: f1 := by
    cases hx : hexMinChars g1 with
    | nil => exact absurd hx (hexMinChars_ne_nil g1)
    | cons c1 f1 => exact ⟨c1, f1, rfl⟩
  obtain ⟨c2, f2, hf2⟩ : ∃ c2 f2, hexMinChars g2 = c2 :: f2 := by
    cases hx : hexMinChars g2 with
    | nil => exact absurd hx (hexMinChars_ne_nil g2)
    | cons c2 f2 => exact ⟨c2, f2, rfl⟩
  unfold parseIPv6Chars
  rw [hsplit, hfe]
  simp only [List.map_cons, hf1, hf2]
  rw [show (c2 :: f2) :: List.map hexMinChars rgt = List.map hexMinChars (g2 :: rgt) by
    rw [List.map_cons, hf2]]
  rw [show (c1 :: f1) :: List.map hexMinChars lgt = List.map hexMinChars (g1 :: lgt) by
    rw [List.map_cons, hf1]]
  rw [findEmpty_all_ne map_hexMin_ne_nil_fields]
  rw [parseNoV4_map_hexMin _ hltL, parseMayV4_map_hexMin _ hltR]
  show (if (groupBytes (g1 :: lgt)).length + (groupBytes (g2 :: rgt)).length ≤ 14
      then some (groupBytes (g1 :: lgt) ++
        List.replicate (16 - (groupBytes (g1 :: lgt)).length -
          (groupBytes (g2 :: rgt)).length) 0 ++ groupBytes (g2 :: rgt))
      else none) = _
  rw [groupBytes_length, groupBytes_length]
  rw [if_pos (by simpa using hle)]

theorem parseIPv6_v6String_groups {gs : List Nat} (hglen : gs.length = 8)
    (hglt : ∀ g ∈ gs, g < 65536) :
    parseIPv6Chars (v6StringChars gs) = some (groupBytes gs) := by
  cases hzr : zeroRun gs with
  | none =>
    have hv6 : v6StringChars gs = joinSep ':' (gs.map hexMinChars) := by
      unfold v6StringChars
      rw [hzr]
    rw [hv6]
    have hmapne : gs.map hexMinChars ≠ [] := by
      intro h0
      have := congrArg List.length h0
      simp [hglen] at this
    unfold parseIPv6Chars
    rw [splitCh_joinSep hmapne map_hexMin_colon_free]
    rw [findEmpty_all_ne map_hexMin_ne_nil_fields]
    rw [parseMayV4_map_hexMin gs hglt]
    show (if (groupBytes gs).length = 16 then some (groupBytes gs) else none)
      = some (groupBytes gs)
    rw [if_pos (by rw [groupBytes_length, hglen])]
  | some p =>
    obtain ⟨i, l⟩ := p
    have hv6 : v6StringChars gs = joinSep ':' ((gs.take i).map hexMinChars) ++ ':' :: ':' ::
        joinSep ':' ((gs.drop (i + l)).map hexMinChars) := by
      unfold v6StringChars
      rw [hzr]
    rw [hv6]
    obtain ⟨hdec, h2, hil, hi⟩ := zeroRun_decomp hzr
    rw [hglen] at hil hi
    have hlg_lt : ∀ g ∈ gs.take i, g < 65536 := fun g hg => hglt g (List.take_subset i gs hg)
    have hrg_lt : ∀ g ∈ gs.drop (i + l), g < 65536 :=
      fun g hg => hglt g (List.drop_subset _ gs hg)
    have hlg_len : (gs.take i).length = i := by rw [List.length_take]; omega
    have hrg_len : (gs.drop (i + l)).length = 8 - (i + l) := by rw [List.length_drop, hglen]
    have hbytes : groupBytes gs
        = groupBytes (gs.take i) ++ List.replicate (2 * l) 0 ++
          groupBytes (gs.drop (i + l)) := by
      conv_lhs => rw [hdec]
      rw [groupBytes_append, groupBytes_append, groupBytes_replicate_zero]
    by_cases hi0 : i = 0
    · subst hi0
      by_cases hl8 : l = 8
      · subst hl8
        have htake : gs.take 0 = [] := rfl
        have hdrop : gs.drop (0 + 8) = [] := by
          apply List.drop_eq_nil_of_le
          omega
        rw [htake, hdrop]
        have hall : groupBytes gs = List.replicate 16 0 := by
          rw [hbytes, htake, hdrop]
          show [] ++ List.replicate (2 * 8) 0 ++ [] = List.replicate 16 0
          simp
        rw [hall]
        rfl
      · have htake : gs.take 0 = [] := rfl
        rw [htake]
        simp only [List.map_nil]
        rw [show joinSep ':' ([] : List (List Char)) = [] from rfl, List.nil_append]
        have hne : gs.drop (0 + l) ≠ [] := by
          intro h0
          have := congrArg List.length h0
          rw [hrg_len] at this
          simp at this
          omega
        have hle : 2 * (gs.drop (0 + l)).length ≤ 14 := by
          rw [hrg_len]
          omega
        rw [parse_leading_abbrev hne hrg_lt hle]
        rw [hbytes, htake]
        rw [show groupBytes ([] : List Nat) = [] from rfl, List.nil_append]
        rw [hrg_len]
        rw [show 16 - 2 * (8 - (0 + l)) = 2 * l by omega]
    · by_cases hl8 : i + l = 8
      · have hdrop : gs.drop (i + l) = [] := by
          apply List.drop_eq_nil_of_le
          omega
        rw [hdrop]
        simp only [List.map_nil]
        rw [show joinSep ':' ([] : List (List Char)) = [] from rfl]
        have hne : gs.take i ≠ [] := by
          intro h0
          have := congrArg List.length h0
          rw [hlg_len] at this
          simp at this
          omega
        have hle : 2 * (gs.take i).length ≤ 14 := by
          rw [hlg_len]
          omega
        rw [show (joinSep ':' (List.map hexMinChars (gs.take i)) ++ ':' :: ':' :: [])
            = joinSep ':' ((gs.take i).map hexMinChars) ++ [':', ':'] from rfl]
        rw [parse_trailing_abbrev hne hlg_lt hle]
        rw [hbytes, hdrop]
        rw [show groupBytes ([] : List Nat) = [] from rfl, List.append_nil]
        rw [hlg_len]
        rw [show 16 - 2 * i = 2 * l by omega]
      · have hneL : gs.take i ≠ [] := by
          intro h0
          have := congrArg List.length h0
          rw [hlg_len] at this
          simp at this
          omega
        have hneR : gs.drop (i + l) ≠ [] := by
          intro h0
          have := congrArg List.length h0
          rw [hrg_len] at this
          simp at this
          omega
        have hle : 2 * (gs.take i).length + 2 * (gs.drop (i + l)).length ≤ 14 := by
          rw [hlg_len, hrg_len]
          omega
        rw [parse_middle_abbrev hneL hneR hlg_lt hrg_lt hle]
        rw [hbytes]
        rw [hlg_len, hrg_len]
        rw [show 16 - 2 * i - 2 * (8 - (i + l)) = 2 * l by omega]

theorem firstSpecial_joinSep_append {fs : List (List Char)} {rest : List Char}
    (hfs : ∀ f ∈ fs, ∀ c ∈ f, ¬(c = '.' ∨ c = ':' ∨ c = '%')) :
    firstSpecial (joinSep ':' fs ++ ':' :: rest) = some ':' := by
  cases fs with
  | nil => exact firstSpecial_field_colon (by intro c hc; simp [joinSep] at hc)
  | cons f0 fs2 =>
    cases fs2 with
    | nil =>
      show firstSpecial (f0 ++ ':' :: rest) = some ':'
      exact firstSpecial_field_colon (hfs f0 (by simp))
    | cons f1 fs3 =>
      show firstSpecial ((f0 ++ ':' :: joinSep ':' (f1 :: fs3)) ++ ':' :: rest) = some ':'
      rw [List.append_assoc]
      exact firstSpecial_field_colon (hfs f0 (by simp))

theorem firstSpecial_v6String {gs : List Nat} (hglen : gs.length = 8) :
    firstSpecial (v6StringChars gs) = some ':' := by
  cases hzr : zeroRun gs with
  | none =>
    have hv6 : v6StringChars gs = joinSep ':' (gs.map hexMinChars) := by
      unfold v6StringChars
      rw [hzr]
    rw [hv6]
    obtain ⟨g0, g1, grest, rfl⟩ : ∃ g0 g1 grest, gs = g0 :: g1 :: grest := by
      rcases gs with _ | ⟨g0, _ | ⟨g1, grest⟩⟩
      · simp at hglen
      · simp at hglen
      · exact ⟨g0, g1, grest, rfl⟩
    show firstSpecial (hexMinChars g0 ++ ':' ::
      joinSep ':' (List.map hexMinChars (g1 :: grest))) = some ':'
    exact firstSpecial_field_colon (fun c hc => hexMin_nonspecial c hc)
  | some p =>
    obtain ⟨i, l⟩ := p
    have hv6 : v6StringChars gs = joinSep ':' ((gs.take i).map hexMinChars) ++ ':' :: ':' ::
        joinSep ':' ((gs.drop (i + l)).map hexMinChars) := by
      unfold v6StringChars
      rw [hzr]
    rw [hv6]
    exact firstSpecial_joinSep_append (fun f hf c hc => by
      simp only [List.mem_map] at hf
      obtain ⟨g, _, rfl⟩ := hf
      exact hexMin_nonspecial c hc)

theorem parseIP_ipString {b : List Nat} (hlen : b.length = 16) (hlt : ∀ x ∈ b, x < 256) :
    parseIPChars (ipStringChars b) = some b := by
  have hips0 : ipStringChars b
      = match to4 b with
        | some q => v4DottedChars q
        | none => v6StringChars (groupsOf b) := by
    unfold ipStringChars
    rw [if_neg (by omega), if_neg (by simp [hlen])]
  cases hto4 : to4 b with
  | some q =>
    have hips : ipStringChars b = v4DottedChars q := by rw [hips0, hto4]
    rw [hips]
    unfold to4 at hto4
    rw [if_neg (by omega)] at hto4
    split_ifs at hto4 with hcond
    injection hto4 with hq
    obtain ⟨hlen16, hz, h10, h11⟩ := hcond
    obtain ⟨a0, a1, a2, a3, a4, a5, a6, a7, a8, a9, a10, a11, a12, a13, a14, a15, rfl⟩ :=
      list16_of_length hlen
    have hz2 : ([a0, a1, a2, a3, a4, a5, a6, a7, a8, a9, a10, a11, a12, a13, a14,
        a15].take 10) = [a0, a1, a2, a3, a4, a5, a6, a7, a8, a9] := rfl
    rw [hz2] at hz
    simp only [List.all_cons, List.all_nil, Bool.and_true, Bool.and_eq_true,
      beq_iff_eq] at hz
    obtain ⟨e0, e1, e2, e3, e4, e5, e6, e7, e8, e9⟩ := hz
    subst e0; subst e1; subst e2; subst e3; subst e4
    subst e5; subst e6; subst e7; subst e8; subst e9
    have h10e : a10 = 255 := h10
    have h11e : a11 = 255 := h11
    subst h10e; subst h11e
    have hqe : q = [a12, a13, a14, a15] := hq.symm
    subst hqe
    have e12 : a12 < 256 := hlt a12 (by simp)
    have e13 : a13 < 256 := hlt a13 (by simp)
    have e14 : a14 < 256 := hlt a14 (by simp)
    have e15 : a15 < 256 := hlt a15 (by simp)
    unfold parseIPChars
    have hfd : firstSpecial (v4DottedChars [a12, a13, a14, a15]) = some '.' := by
      show firstSpecial (decChars a12 ++ '.' ::
        joinSep '.' [decChars a13, decChars a14, decChars a15]) = some '.'
      exact firstSpecial_field_dot (fun c hc => decChars_nonspecial c hc)
    rw [hfd]
    show (match parseIPv4Chars (v4DottedChars [a12, a13, a14, a15]) with
      | some q => some (v4InV6 q)
      | none => none) = _
    rw [parseIPv4_v4Dotted e12 e13 e14 e15]
    rfl
  | none =>
    have hips : ipStringChars b = v6StringChars (groupsOf b) := by rw [hips0, hto4]
    rw [hips]
    have hglen : (groupsOf b).length = 8 := by simp [groupsOf]
    unfold parseIPChars
    rw [firstSpecial_v6String hglen]
    show parseIPv6Chars (v6StringChars (groupsOf b)) = some b
    rw [parseIPv6_v6String_groups hglen (groupsOf_lt hlt), groupBytes_groupsOf hlen hlt]

/-! ## The program under verification (`ipv6utils.go`)

String-level wrappers around the parser/renderer models, followed by the
program's own functions.  `parseIP` models `net.ParseIP`; `ipString`
models `net.IP.String()` / `fmt.Sprintf("%s", ip)`. -/

def parseIP (s : String) : Option (List Nat) := parseIPChars s.data

def ipString (b : List Nat) : String := String.mk (ipStringChars b)

/-- Go `%d` of an `int` (exact for |t| < 1000; only prefix lengths are
ever printed here). -/
def intDecString (t : Int) : String :=
  if t < 0 then String.mk ('-' :: decChars (-t).toNat) else String.mk (decChars t.toNat)

/-- `strings.Join` with a string separator. -/
def joinStrings (sep : String) : List String → String
  | [] => ""
  | [x] => x
  | x :: xs => x ++ sep ++ joinStrings sep xs

/-- `isNibbleAligned` — `prefixLength%4 == 0` (agreement of Go's truncated
`%` and Lean's `%` on the zero test). -/
def isNibbleAligned (prefixLength : Int) : Bool := prefixLength % 4 == 0

/-- Go's `1 << d` evaluated on a 64-bit two's-complement `int`: high bits
are discarded, the result re-read as signed.  (`d ≥ 0` at every call site;
a negative shift count would panic in Go.) -/
def goIntShl1 (d : Int) : Int :=
  let v := (2 ^ d.toNat) % (2 ^ 64)
  if v < 2 ^ 63 then v else v - 2 ^ 64

/-- Model of `countSubnets` after `net.ParseCIDR` has succeeded on the
prefix argument: `currentPrefixLength` is the parsed mask size and
`newPrefixLength` the requested target length.  The count is Go's
`1 << (new-current)` on a 64-bit `int`. -/
def countSubnets (currentPrefixLength newPrefixLength : Int) : Except String Int :=
  if newPrefixLength ≤ currentPrefixLength then
    .error "new prefix length must be larger than the current prefix length"
  else
    .ok (goIntShl1 (newPrefixLength - currentPrefixLength))

/-- `big.Int.SetBytes` (big-endian). -/
def bytesToNat (l : List Nat) : Nat := l.foldl (fun a b => 256 * a + b) 0

def natToBytesAux (fuel : Nat) (n : Nat) : List Nat :=
  match fuel with
  | 0 => []
  | fuel + 1 => if n = 0 then [] else natToBytesAux fuel (n / 256) ++ [n % 256]

/-- `big.Int.Bytes`: minimal big-endian bytes, empty for zero (exact below
`256^20`, far above every value reachable here). -/
def natToBytes (n : Nat) : List Nat := natToBytesAux 20 n

/-- Model of `addBigIntToIP`: read the address as a big integer, add,
take `Bytes()`, and left-pad with zeros to 16 bytes when shorter (longer
results are passed through untrimmed, as in the source). -/
def addBigIntToIP (ip : List Nat) (value : Nat) : List Nat :=
  let ipInt := bytesToNat ((to16 ip).getD [])
  let newIP := natToBytes (ipInt + value)
  if newIP.length < 16 then List.replicate (16 - newIP.length) 0 ++ newIP else newIP

/-- Byte `i` of `net.CIDRMask(ones, 128)`. -/
def cidrMaskByte (ones i : Nat) : Nat :=
  if 8 * (i + 1) ≤ ones then 255
  else if ones ≤ 8 * i then 0
  else (255 * 2 ^ (8 * (i + 1) - ones)) % 256

/-- `ip.Mask(ipnet.Mask)` for a 16-byte address (bytewise AND). -/
def maskBytes (b : List Nat) (ones : Nat) : List Nat :=
  (List.range 16).map fun i => b.getD i 0 &&& cidrMaskByte ones i

/-- `fmt.Sprintf("%s/%d", prefixIP, newPrefixLength)`. -/
def subnetString (addr : List Nat) (newPrefixLength : Int) : String :=
  ipString addr ++ "/" ++ intDecString newPrefixLength

/-- The generation loop of `generateSubnets`: `for i := 0; i < subnetCount;
i++ { append; advance; if limit > 0 && len(subnets) >= limit { break } }`. -/
def genLoop (subnetCount limit newPrefixLength : Int) (increment : Nat)
    (prefixIP : List Nat) (i : Int) (subnets : List String) : List String :=
  if h : i < subnetCount then
    let subnets2 := subnets ++ [subnetString prefixIP newPrefixLength]
    if 0 < limit ∧ limit ≤ (subnets2.length : Int) then subnets2
    else genLoop subnetCount limit newPrefixLength increment
      (addBigIntToIP prefixIP increment) (i + 1) subnets2
  else subnets
termination_by (subnetCount - i).toNat
decreasing_by
  omega

/-- The address key used by the final `sort.Slice` comparator:
`net.ParseIP(strings.Split(s, "/")[0])`, `nil` read as the empty byte
list for `bytes.Compare`. -/
def subnetKey (s : String) : List Nat :=
  (parseIPChars ((splitCh '/' s.data).headD [])).getD []

/-- `bytes.Compare(a, b) < 0` (lexicographic on byte slices). -/
def bytesLt : List Nat → List Nat → Bool
  | [], [] => false
  | [], _ :: _ => true
  | _ :: _, [] => false
  | a :: as, b :: bs => if a < b then true else if b < a then false else bytesLt as bs

def orderedInsert (less : String → String → Bool) (a : String) : List String → List String
  | [] => [a]
  | b :: l => if less a b then a :: b :: l else b :: orderedInsert less a l

/-- The final `sort.Slice` by 128-bit address value (any comparison sort
produces the same list here; keys are distinct). -/
def sortSubnets (l : List String) : List String :=
  l.foldr (orderedInsert (fun s1 s2 => bytesLt (subnetKey s1) (subnetKey s2))) []

/-- Model of `generateSubnets` after `net.ParseCIDR` has succeeded:
`ipnetIP` is the (16-byte) network address, `currentPrefixLength` the mask
size.  The nibble-alignment warning and the progress print are side
channels and have no effect on the result.  `uint(128-newPrefixLength)`
equals `128-newPrefixLength` for targets ≤ 128 (the claims' range). -/
def generateSubnets (ipnetIP : List Nat) (currentPrefixLength newPrefixLength limit : Int) :
    Except String (List String) :=
  if newPrefixLength ≤ currentPrefixLength then
    .error "new prefix length must be larger than the current prefix length"
  else
    let subnetCount := goIntShl1 (newPrefixLength - currentPrefixLength)
    let prefixIP := maskBytes ipnetIP currentPrefixLength.toNat
    let increment := 2 ^ (128 - newPrefixLength).toNat
    .ok (sortSubnets (genLoop subnetCount limit newPrefixLength increment prefixIP 0 []))

/-- Model of `synthesizedToIPv4`. -/
def synthesizedToIPv4 (synthesizedAddr : String) : Except String String :=
  match parseIP synthesizedAddr with
  | none => .error "invalid RFC 6052 synthesized address"
  | some ip =>
    match to16 ip with
    | none => .error "invalid RFC 6052 synthesized address"
    | some _ =>
      let ipv4 := (ip.drop 12).take 4
      if ipv4.length ≠ 4 then .error "not a valid synthesized IPv6 address containing IPv4"
      else .ok (String.mk (v4DottedChars ipv4))

/-- Model of `ipv4ToSynthesized`.  `copy(ipv6Addr, prefixIP.To16())` fills
the 16-byte zero buffer with the prefix bytes (a `nil` `To16` would leave
it zero); `copy(ipv6Addr[12:], ip.To4())` overwrites the last 4 bytes. -/
def ipv4ToSynthesized (ipv4Addr pfx : String) : Except String String :=
  match parseIP ipv4Addr with
  | none => .error "invalid IPv4 address"
  | some ip =>
    match to4 ip with
    | none => .error "invalid IPv4 address"
    | some ip4 =>
      match parseIP pfx with
      | none => .error "invalid IPv6 prefix"
      | some prefixIP =>
        let pre16 := (to16 prefixIP).getD (List.replicate 16 0)
        .ok (ipString (pre16.take 12 ++ ip4))

/-- Model of `fmt.Sscanf(part, "%x", &b[i])` into a `uint8`: skip leading
white space, read a maximal nonempty run of hex digits, ignore trailing
input (`Sscanf` does not require the verb to consume the operand), fail on
values above 255 ("value out of range"). -/
def sscanfHexByte (cs : List Char) : Option Nat :=
  let cs2 := cs.dropWhile fun c => c = ' ' ∨ c = '\t' ∨ c = '\n' ∨ c = '\r'
  let digits := cs2.takeWhile fun c => (hexVal c).isSome
  if digits.length = 0 then none
  else
    let v := digits.foldl (fun a c => 16 * a + (hexVal c).getD 0) 0
    if 255 < v then none else some v

def scanParts : List (List Char) → Option (List Nat)
  | [] => some []
  | p :: ps =>
    match sscanfHexByte p, scanParts ps with
    | some v, some vs => some (v :: vs)
    | _, _ => none

/-- The characters of
`fmt.Sprintf("fe80::%02x%02x:%02xff:fe%02x:%02x%02x", b0, b1, b2, b3, b4, b5)`. -/
def linkLocalChars (b0 b1 b2 b3 b4 b5 : Nat) : List Char :=
  ['f', 'e', '8', '0', ':', ':'] ++ hex2Chars b0 ++ hex2Chars b1 ++ [':'] ++
    hex2Chars b2 ++ ['f', 'f', ':', 'f', 'e'] ++ hex2Chars b3 ++ [':'] ++
    hex2Chars b4 ++ hex2Chars b5

/-- Model of `macToLinkLocal`. -/
def macToLinkLocal (mac : String) : Except String String :=
  let parts := splitCh ':' mac.data
  if parts.length ≠ 6 then .error "invalid MAC address format"
  else
    match scanParts parts with
    | none => .error "invalid MAC octet"
    | some o =>
      .ok (String.mk (linkLocalChars (o.getD 0 0 ^^^ 0x02) (o.getD 1 0) (o.getD 2 0)
        (o.getD 3 0) (o.getD 4 0) (o.getD 5 0)))

/-- `fmt.Sprintf("%02x:%02x:%02x:%02x:%02x:%02x", ...)`. -/
def macChars (o : List Nat) : List Char := joinSep ':' (o.map hex2Chars)

/-- Model of `linkLocalToMAC`.  The link-locality test is textual:
`strings.HasPrefix(ipv6, "fe80")` on the input string. -/
def linkLocalToMAC (ipv6 : String) : Except String String :=
  match parseIP ipv6 with
  | none => .error "invalid IPv6 address"
  | some ip =>
    match to16 ip with
    | none => .error "invalid IPv6 address"
    | some _ =>
      if ¬ ("fe80".data.isPrefixOf ipv6.data) then .error "invalid IPv6 address"
      else
        let interfaceID := ip.drop 8
        if interfaceID.length < 8 ∨ interfaceID.getD 3 0 ≠ 0xff ∨ interfaceID.getD 4 0 ≠ 0xfe
        then .error "not a valid EUI-64 link-local address"
        else
          .ok (String.mk (macChars [interfaceID.getD 0 0 ^^^ 0x02, interfaceID.getD 1 0,
            interfaceID.getD 2 0, interfaceID.getD 5 0, interfaceID.getD 6 0,
            interfaceID.getD 7 0]))

/-- Model of `ipv6ToArpa`.  The nibble list is
`strings.Split(hex.EncodeToString(ip.To16()), "")`; the nibble-alignment
warning is a side channel only. -/
def ipv6ToArpa (ipv6 : String) (prefixLength : Int) : Except String String :=
  match parseIP ipv6 with
  | none => .error ("Invalid IP address: " ++ ipv6)
  | some ip =>
    match to16 ip with
    | none => .error ("Invalid IP address: " ++ ipv6)
    | some ip16 =>
      if prefixLength < 0 ∨ 128 < prefixLength then
        .error ("Invalid prefix length: " ++ intDecString prefixLength)
      else
        let nibbles := (hexPlainChars ip16).map fun c => String.mk [c]
        let nr := nibbles.reverse
        let trim : Int := 32 - prefixLength / 4
        if 0 ≤ trim ∧ trim < 32 then .ok (joinStrings "." (nr.take trim.toNat))
        else .ok (joinStrings "." nr ++ ".ip6.arpa.")

/-- Model of `classifyIPv6` (the ordered rule chain over `b := ip.To16()`). -/
def classifyIPv6 (ip : List Nat) : String :=
  let b := (to16 ip).getD []
  if ip = List.replicate 16 0 then "Unspecified (::)"
  else if ip = List.replicate 15 0 ++ [1] then "Loopback (::1)"
  else if ((b.take 10).all fun x => x == 0) ∧ b.getD 10 0 = 255 ∧ b.getD 11 0 = 255 then
    "IPv4-Mapped (::ffff:0:0/96)"
  else if b.getD 0 0 = 0x00 ∧ b.getD 1 0 = 0x64 ∧ b.getD 2 0 = 0xff ∧ b.getD 3 0 = 0x9b ∧
      b.getD 4 0 = 0 ∧ b.getD 5 0 = 0 ∧ b.getD 6 0 = 0 ∧ b.getD 7 0 = 0 ∧
      b.getD 8 0 = 0 ∧ b.getD 9 0 = 0 ∧ b.getD 10 0 = 0 ∧ b.getD 11 0 = 0 then
    "NAT64 Well-Known Prefix (64:ff9b::/96)"
  else if b.getD 0 0 = 0x00 ∧ b.getD 1 0 = 0x64 ∧ b.getD 2 0 = 0xff ∧ b.getD 3 0 = 0x9b ∧
      b.getD 4 0 = 0 ∧ b.getD 5 0 = 1 then
    "NAT64 Network-Specific (64:ff9b:1::/48)"
  else if b.getD 0 0 = 0x01 ∧ b.getD 1 0 = 0 ∧ b.getD 2 0 = 0 ∧ b.getD 3 0 = 0 ∧
      b.getD 4 0 = 0 ∧ b.getD 5 0 = 0 ∧ b.getD 6 0 = 0 ∧ b.getD 7 0 = 0 then
    "Discard-Only (100::/64)"
  else if b.getD 0 0 = 0x20 ∧ b.getD 1 0 = 0x01 ∧ b.getD 2 0 = 0x00 ∧ b.getD 3 0 = 0x00 then
    "Teredo (2001:0000::/32)"
  else if b.getD 0 0 = 0x20 ∧ b.getD 1 0 = 0x01 ∧ b.getD 2 0 = 0x0d ∧ b.getD 3 0 = 0xb8 then
    "Documentation (2001:db8::/32)"
  else if b.getD 0 0 = 0x20 ∧ b.getD 1 0 = 0x02 then "6to4 (2002::/16)"
  else if b.getD 0 0 = 0x3f ∧ b.getD 1 0 = 0xff ∧ b.getD 2 0 &&& 0xf0 = 0x00 then
    "Documentation (3fff::/20)"
  else if b.getD 0 0 &&& 0xfe = 0xfc then "Unique Local Address (ULA, fc00::/7)"
  else if b.getD 0 0 = 0xfe ∧ b.getD 1 0 &&& 0xc0 = 0x80 then "Link-Local (fe80::/10)"
  else if b.getD 0 0 = 0xff then
    let scope := b.getD 1 0 &&& 0x0f
    let scopeStr :=
      if scope = 0x01 then "Interface-Local"
      else if scope = 0x02 then "Link-Local"
      else if scope = 0x04 then "Admin-Local"
      else if scope = 0x05 then "Site-Local"
      else if scope = 0x08 then "Organization-Local"
      else if scope = 0x0e then "Global"
      else "Unknown (0x" ++ String.mk (hex2Chars scope) ++ ")"
    "Multicast (ff00::/8), Scope: " ++ scopeStr
  else if b.getD 0 0 &&& 0xe0 = 0x20 then "Global Unicast (2000::/3)"
  else "Reserved / Unknown"

/-- The compressed variant for a zero window `[start, e)` of the group
strings (`left = groups[:start]`, `right = groups[e:]`). -/
def compContext (groups : List String) (start e : Nat) : String :=
  let left := groups.take start
  let right := groups.drop e
  if start = 0 ∧ e = 8 then "::"
  else if start = 0 then "::" ++ joinStrings ":" right
  else if e = 8 then joinStrings ":" left ++ "::"
  else joinStrings ":" left ++ "::" ++ joinStrings ":" right

/-- Inner loop of `compressionPermutations`:
`for end := start+2; end <= 8; end++ { if groups[end-1] != "0" { break }; append }`. -/
def compInner (groups : List String) (start e fuel : Nat) : List String :=
  match fuel with
  | 0 => []
  | fuel + 1 =>
    if e ≤ 8 then
      if groups.getD (e - 1) "" ≠ "0" then []
      else compContext groups start e :: compInner groups start (e + 1) fuel
    else []

def dedupAux (seen : List String) : List String → List String
  | [] => []
  | r :: rs => if r ∈ seen then dedupAux seen rs else r :: dedupAux (r :: seen) rs

/-- The order-preserving deduplication at the end of
`compressionPermutations`. -/
def dedup (l : List String) : List String := dedupAux [] l

/-- Model of `compressionPermutations`. -/
def compressionPermutations (ip : List Nat) : List String :=
  let b := (to16 ip).getD []
  let groups := (List.range 8).map fun i =>
    String.mk (hexMinChars (256 * b.getD (2 * i) 0 + b.getD (2 * i + 1) 0))
  let results := (List.range 8).foldl (fun acc start =>
    if groups.getD start "" ≠ "0" then acc
    else acc ++ compInner groups start (start + 2) 9) []
  dedup results

/-! ## Lemmas about the program functions -/

theorem stringMk_data (s : String) : String.mk s.data = s := by
  cases s
  rfl

theorem goIntShl1_small {d : Int} (h1 : 0 < d) (h2 : d ≤ 62) :
    goIntShl1 d = 2 ^ d.toNat := by
  unfold goIntShl1
  have hle : (2 : Int) ^ d.toNat ≤ 2 ^ 62 := by
    apply pow_le_pow_right (by omega)
    omega
  have hlt63 : (2 : Int) ^ 62 < 2 ^ 63 := by norm_num
  have hlt64 : (2 : Int) ^ 63 < 2 ^ 64 := by norm_num
  have hpos : (0 : Int) ≤ 2 ^ d.toNat := by positivity
  rw [Int.emod_eq_of_lt hpos (by omega)]
  rw [if_pos (by omega)]

theorem genLoop_len_nolimit {limit : Int} (hlim : limit ≤ 0)
    (subnetCount t : Int) (inc : Nat) :
    ∀ (n : Nat) (addr : List Nat) (i : Int) (acc : List String),
      (subnetCount - i).toNat = n →
      (genLoop subnetCount limit t inc addr i acc).length
        = acc.length + (subnetCount - i).toNat := by
  intro n
  induction n using Nat.strong_induction_on with
  | _ n ih =>
    intro addr i acc hn
    unfold genLoop
    split
    · rename_i hlt2
      rw [if_neg (by omega)]
      rw [ih ((subnetCount - (i + 1)).toNat) (by omega) _ (i + 1) _ rfl]
      simp only [List.length_append, List.length_singleton]
      omega
    · rename_i hge
      omega

theorem genLoop_len_limit {limit : Int} (hlim : 0 < limit)
    (subnetCount t : Int) (inc : Nat) :
    ∀ (n : Nat) (addr : List Nat) (i : Int) (acc : List String),
      (subnetCount - i).toNat = n → (acc.length : Int) < limit →
      ((genLoop subnetCount limit t inc addr i acc).length : Int)
        = min ((acc.length : Int) + (subnetCount - i).toNat) limit := by
  intro n
  induction n using Nat.strong_induction_on with
  | _ n ih =>
    intro addr i acc hn hacc
    unfold genLoop
    split
    · rename_i hlt2
      by_cases hstop : limit ≤ ((acc ++ [subnetString addr t]).length : Int)
      · rw [if_pos ⟨hlim, hstop⟩]
        simp only [List.length_append, List.length_singleton] at hstop ⊢
        push_cast at hstop ⊢
        omega
      · rw [if_neg (by tauto)]
        rw [ih ((subnetCount - (i + 1)).toNat) (by omega) _ (i + 1) _ rfl
          (by
            simp only [List.length_append, List.length_singleton] at hstop ⊢
            push_cast at hstop ⊢
            omega)]
        simp only [List.length_append, List.length_singleton]
        push_cast
        omega
    · rename_i hge
      rw [min_eq_left (by omega)]
      omega

theorem orderedInsert_length (less : String → String → Bool) (a : String) :
    ∀ l : List String, (orderedInsert less a l).length = l.length + 1 := by
  intro l
  induction l with
  | nil => rfl
  | cons b l ih =>
    unfold orderedInsert
    split
    · simp
    · simp [ih]

theorem sortSubnets_length (l : List String) : (sortSubnets l).length = l.length := by
  unfold sortSubnets
  induction l with
  | nil => rfl
  | cons a l ih =>
    show (orderedInsert _ a (l.foldr _ [])).length = l.length + 1
    rw [orderedInsert_length]
    rw [ih]

theorem genLoop_stop {subnetCount limit t : Int} {inc : Nat} {addr : List Nat} {i : Int}
    {acc : List String} (h : ¬ i < subnetCount) :
    genLoop subnetCount limit t inc addr i acc = acc := by
  unfold genLoop
  rw [dif_neg h]

theorem generateSubnets_ok {base : List Nat} {c t k : Int} (h : ¬ t ≤ c) :
    generateSubnets base c t k
      = .ok (sortSubnets (genLoop (goIntShl1 (t - c)) k t (2 ^ ((128 : Int) - t).toNat)
          (maskBytes base c.toNat) 0 [])) := by
  unfold generateSubnets
  rw [if_neg h]

/-! ## Claim C1 -/

/-- C1 (counterexample): with base prefix length 0 and target 64, the delta
64 is "up to 128", yet `countSubnets` returns the overflowed 64-bit value
`1 << 64 = 0`, not `2^64`, and `generateSubnets` with limit 0 returns no
subnets at all rather than `2^64` of them. -/
theorem C1_counterexample :
    countSubnets 0 64 = Except.ok 0 ∧
    generateSubnets (List.replicate 16 0) 0 64 0 = Except.ok [] ∧
    (0 : Int) ≠ 2 ^ 64 ∧ (List.length ([] : List String)) ≠ 2 ^ 64 := by
  refine ⟨rfl, ?_, by decide, by decide⟩
  rw [generateSubnets_ok (by decide), genLoop_stop (by decide)]
  rfl

/-- C1 (amended): for every base prefix length `c` and target `t` with
`c < t` and a delta `t - c` of at most 62 (so that Go's `1 << delta` does
not overflow its 64-bit `int`), `countSubnets` returns exactly
`2^(t-c)` and `generateSubnets` with limit 0 returns exactly `2^(t-c)`
subnet strings. -/
theorem C1_amended (c t : Int) (hc : 0 ≤ c) (hlt : c < t) (hd : t - c ≤ 62)
    (base : List Nat) :
    countSubnets c t = .ok (2 ^ (t - c).toNat) ∧
    ∃ l, generateSubnets base c t 0 = .ok l ∧ l.length = 2 ^ (t - c).toNat := by
  have hshl := goIntShl1_small (d := t - c) (by omega) hd
  constructor
  · unfold countSubnets
    rw [if_neg (by omega), hshl]
  · unfold generateSubnets
    rw [if_neg (by omega)]
    refine ⟨_, rfl, ?_⟩
    rw [sortSubnets_length]
    rw [genLoop_len_nolimit (by omega) _ _ _ ((goIntShl1 (t - c) - 0).toNat) _ 0 [] rfl]
    rw [hshl]
    have hcast : ((2 : Int) ^ (t - c).toNat - 0).toNat = 2 ^ (t - c).toNat := by
      rw [sub_zero, show ((2 : Int) ^ (t - c).toNat) = ((2 ^ (t - c).toNat : Nat) : Int) by
        push_cast
        ring, Int.toNat_natCast]
    rw [hcast]
    simp

theorem C1_witness :
    (0 : Int) ≤ 0 ∧ (0 : Int) < 2 ∧ (2 : Int) - 0 ≤ 62 ∧
    (countSubnets 0 2 = .ok (2 ^ ((2 : Int) - 0).toNat) ∧
      ∃ l, generateSubnets (List.replicate 16 0) 0 2 0 = .ok l ∧
        l.length = 2 ^ ((2 : Int) - 0).toNat) :=
  ⟨by decide, by decide, by decide,
    C1_amended 0 2 (by decide) (by decide) (by decide) (List.replicate 16 0)⟩

/-! ## Claim C2 -/

/-- C2 (counterexample): with base prefix length 0, target 64 and limit 1,
`generateSubnets` returns no entries at all (the 64-bit count `1 << 64`
overflows to 0 before the limit can apply), not `min(1, 2^64) = 1`. -/
theorem C2_counterexample :
    generateSubnets (List.replicate 16 0) 0 64 1 = Except.ok [] ∧
      ((List.length ([] : List String) : Int)) ≠ min 1 ((2 : Int) ^ 64) := by
  refine ⟨?_, by decide⟩
  rw [generateSubnets_ok (by decide), genLoop_stop (by decide)]
  rfl

/-- C2 (amended): for every base prefix length `c`, target `t` with
`c < t`, delta at most 62, and limit `k > 0`, `generateSubnets` returns
exactly `min(k, 2^(t-c))` subnet strings. -/
theorem C2_amended (c t k : Int) (hc : 0 ≤ c) (hlt : c < t) (hd : t - c ≤ 62) (hk : 0 < k)
    (base : List Nat) :
    ∃ l, generateSubnets base c t k = .ok l ∧
      (l.length : Int) = min k (2 ^ (t - c).toNat) := by
  have hshl := goIntShl1_small (d := t - c) (by omega) hd
  unfold generateSubnets
  rw [if_neg (by omega)]
  refine ⟨_, rfl, ?_⟩
  rw [sortSubnets_length]
  rw [genLoop_len_limit hk _ _ _ ((goIntShl1 (t - c) - 0).toNat) _ 0 [] rfl (by simpa using hk)]
  rw [hshl]
  have hcast : ((2 : Int) ^ (t - c).toNat - 0).toNat = 2 ^ (t - c).toNat := by
    rw [sub_zero, show ((2 : Int) ^ (t - c).toNat) = ((2 ^ (t - c).toNat : Nat) : Int) by
      push_cast
      ring, Int.toNat_natCast]
  rw [hcast]
  have hpow : ((2 ^ (t - c).toNat : Nat) : Int) = (2 : Int) ^ (t - c).toNat := by
    push_cast
    ring
  simp only [List.length_nil, Nat.cast_zero, zero_add]
  rw [hpow]
  exact min_comm _ _

theorem C2_witness :
    (0 : Int) ≤ 0 ∧ (0 : Int) < 2 ∧ (2 : Int) - 0 ≤ 62 ∧ (0 : Int) < 3 ∧
    ∃ l, generateSubnets (List.replicate 16 0) 0 2 3 = .ok l ∧
      (l.length : Int) = min 3 (2 ^ ((2 : Int) - 0).toNat) :=
  ⟨by decide, by decide, by decide, by decide,
    C2_amended 0 2 3 (by decide) (by decide) (by decide) (by decide) (List.replicate 16 0)⟩

/-! ## Claim C3 -/

theorem hexDigitChar_not_ws : ∀ d : Nat, d < 16 →
    ¬(hexDigitChar d = ' ' ∨ hexDigitChar d = '\t' ∨ hexDigitChar d = '\n' ∨
      hexDigitChar d = '\r') := by
  decide

set_option maxRecDepth 8000 in
theorem sscanfHexByte_hex2 : ∀ v : Nat, v < 256 → sscanfHexByte (hex2Chars v) = some v := by
  decide

theorem hex2Chars_no_colon {n : Nat} (h : n < 256) : ':' ∉ hex2Chars n := by
  intro hm
  simp only [hex2Chars, List.mem_cons, List.not_mem_nil, or_false] at hm
  rcases hm with hm | hm
  · exact hexDigitChar_not_special (n / 16) (by omega) (Or.inr (Or.inl hm.symm))
  · exact hexDigitChar_not_special (n % 16) (by omega) (Or.inr (Or.inl hm.symm))

theorem hex2Chars_no_dot {n : Nat} (h : n < 256) : '.' ∉ hex2Chars n := by
  intro hm
  simp only [hex2Chars, List.mem_cons, List.not_mem_nil, or_false] at hm
  rcases hm with hm | hm
  · exact hexDigitChar_not_special (n / 16) (by omega) (Or.inl hm.symm)
  · exact hexDigitChar_not_special (n % 16) (by omega) (Or.inl hm.symm)

theorem fieldBytes_pair {a b : Nat} (ha : a < 256) (hb : b < 256) :
    fieldBytes (256 * a + b) = [a, b] := by
  unfold fieldBytes
  have e1 : (256 * a + b) / 256 = a := by omega
  have e2 : (256 * a + b) % 256 = b := by omega
  rw [e1, e2]

theorem parseNoV4_cons {f : List Char} {fs : List (List Char)} {g : Nat} {bs : List Nat}
    (h : parseHexField f = some g) (hrest : parseNoV4 fs = some bs) :
    parseNoV4 (f :: fs) = some (fieldBytes g ++ bs) := by
  have e : parseNoV4 (f :: fs) = match parseHexField f, parseNoV4 fs with
    | some g, some bs => some (fieldBytes g ++ bs)
    | _, _ => none := rfl
  rw [e, h, hrest]

theorem parseMayV4_single {f : List Char} {g : Nat} (hdot : '.' ∉ f)
    (h : parseHexField f = some g) : parseMayV4 [f] = some (fieldBytes g) := by
  unfold parseMayV4
  rw [if_neg hdot, h]

theorem parseMayV4_cons2 {f f2 : List Char} {fs : List (List Char)} {g : Nat} {bs : List Nat}
    (h : parseHexField f = some g) (hrest : parseMayV4 (f2 :: fs) = some bs) :
    parseMayV4 (f :: f2 :: fs) = some (fieldBytes g ++ bs) := by
  have e : parseMayV4 (f :: f2 :: fs) = match parseHexField f, parseMayV4 (f2 :: fs) with
    | some g, some bs => some (fieldBytes g ++ bs)
    | _, _ => none := rfl
  rw [e, h, hrest]

theorem scanParts_cons {p : List Char} {ps : List (List Char)} {v : Nat} {vs : List Nat}
    (h : sscanfHexByte p = some v) (hr : scanParts ps = some vs) :
    scanParts (p :: ps) = some (v :: vs) := by
  have e : scanParts (p :: ps) = match sscanfHexByte p, scanParts ps with
    | some v, some vs => some (v :: vs)
    | _, _ => none := rfl
  rw [e, h, hr]

theorem parse_middle_fields {lf rf : List (List Char)} {bl br : List Nat}
    (hneL : lf ≠ []) (hneR : rf ≠ [])
    (hnnL : ∀ f ∈ lf, f ≠ []) (hnnR : ∀ f ∈ rf, f ≠ [])
    (hcfL : ∀ f ∈ lf, ':' ∉ f) (hcfR : ∀ f ∈ rf, ':' ∉ f)
    (hL : parseNoV4 lf = some bl) (hR : parseMayV4 rf = some br)
    (hle : bl.length + br.length ≤ 14) :
    parseIPv6Chars (joinSep ':' lf ++ ':' :: ':' :: joinSep ':' rf)
      = some (bl ++ List.replicate (16 - bl.length - br.length) 0 ++ br) := by
  obtain ⟨f1, lft, rfl⟩ : ∃ f1 lft, lf = f1 :: lft := by
    cases lf with
    | nil => exact absurd rfl hneL
    | cons f1 lft => exact ⟨f1, lft, rfl⟩
  obtain ⟨f2, rft, rfl⟩ : ∃ f2 rft, rf = f2 :: rft := by
    cases rf with
    | nil => exact absurd rfl hneR
    | cons f2 rft => exact ⟨f2, rft, rfl⟩
  obtain ⟨c1, t1, rfl⟩ : ∃ c1 t1, f1 = c1 :: t1 := by
    cases hx : f1 with
    | nil => exact absurd hx (hnnL f1 (by simp))
    | cons c1 t1 => exact ⟨c1, t1, rfl⟩
  obtain ⟨c2, t2, rfl⟩ : ∃ c2 t2, f2 = c2 :: t2 := by
    cases hx : f2 with
    | nil => exact absurd hx (hnnR f2 (by simp))
    | cons c2 t2 => exact ⟨c2, t2, rfl⟩
  have hsplit : splitCh ':' (joinSep ':' ((c1 :: t1) :: lft) ++ ':' :: ':' ::
        joinSep ':' ((c2 :: t2) :: rft))
      = ((c1 :: t1) :: lft) ++ [] :: ((c2 :: t2) :: rft) := by
    rw [splitCh_joinSep_append (by simp) hcfL]
    rw [splitCh_cons_sepCase]
    rw [splitCh_joinSep (by simp) hcfR]
  have hfe : findEmpty (((c1 :: t1) :: lft) ++ [] :: ((c2 :: t2) :: rft))
      = some ((c1 :: t1) :: lft, (c2 :: t2) :: rft) :=
    findEmpty_append hnnL
  unfold parseIPv6Chars
  rw [hsplit]
  simp only [hfe, findEmpty_all_ne hnnR, hL, hR]
  rw [if_pos hle]

theorem parseIP_linkLocal {c0 b1 b2 b3 b4 b5 : Nat} (h0 : c0 < 256) (h1 : b1 < 256)
    (h2 : b2 < 256) (h3 : b3 < 256) (h4 : b4 < 256) (h5 : b5 < 256) :
    parseIPChars (linkLocalChars c0 b1 b2 b3 b4 b5)
      = some [254, 128, 0, 0, 0, 0, 0, 0, c0, b1, b2, 255, 254, b3, b4, b5] := by
  have hfs : firstSpecial (linkLocalChars c0 b1 b2 b3 b4 b5) = some ':' := by
    have e : linkLocalChars c0 b1 b2 b3 b4 b5
        = ['f', 'e', '8', '0'] ++ ':' :: (':' :: (hex2Chars c0 ++ (hex2Chars b1 ++ ([':'] ++
            (hex2Chars b2 ++ (['f', 'f', ':', 'f', 'e'] ++ (hex2Chars b3 ++ ([':'] ++
            (hex2Chars b4 ++ hex2Chars b5))))))))) := by
      simp [linkLocalChars]
    rw [e]
    exact firstSpecial_field_colon (by decide)
  have hdot45 : '.' ∉ hex2Chars b4 ++ hex2Chars b5 := by
    intro hm
    rcases List.mem_append.mp hm with hm | hm
    · exact hex2Chars_no_dot h4 hm
    · exact hex2Chars_no_dot h5 hm
  have e2 : parseHexField (hex2Chars c0 ++ hex2Chars b1) = some (256 * c0 + b1) :=
    parseHex_hex2_append h0 h1
  have e3 : parseHexField (hex2Chars b2 ++ ['f', 'f']) = some (256 * b2 + 255) :=
    @parseHex_hex2_append b2 255 h2 (by decide)
  have e4 : parseHexField (['f', 'e'] ++ hex2Chars b3) = some (256 * 254 + b3) :=
    @parseHex_hex2_append 254 b3 (by decide) h3
  have e5 : parseHexField (hex2Chars b4 ++ hex2Chars b5) = some (256 * b4 + b5) :=
    parseHex_hex2_append h4 h5
  have hR : parseMayV4 [hex2Chars c0 ++ hex2Chars b1, hex2Chars b2 ++ ['f', 'f'],
      ['f', 'e'] ++ hex2Chars b3, hex2Chars b4 ++ hex2Chars b5]
      = some [c0, b1, b2, 255, 254, b3, b4, b5] := by
    rw [parseMayV4_cons2 e2 (parseMayV4_cons2 e3
      (parseMayV4_cons2 e4 (parseMayV4_single hdot45 e5)))]
    rw [fieldBytes_pair h0 h1, fieldBytes_pair h2 (by omega), fieldBytes_pair (by omega) h3,
      fieldBytes_pair h4 h5]
    rfl
  have hL : parseNoV4 [['f', 'e', '8', '0']] = some [254, 128] := rfl
  have hnnR : ∀ f ∈ [hex2Chars c0 ++ hex2Chars b1, hex2Chars b2 ++ ['f', 'f'],
      ['f', 'e'] ++ hex2Chars b3, hex2Chars b4 ++ hex2Chars b5], f ≠ [] := by
    intro f hf
    simp only [List.mem_cons, List.not_mem_nil, or_false] at hf
    rcases hf with rfl | rfl | rfl | rfl <;> simp [hex2Chars]
  have hcfR : ∀ f ∈ [hex2Chars c0 ++ hex2Chars b1, hex2Chars b2 ++ ['f', 'f'],
      ['f', 'e'] ++ hex2Chars b3, hex2Chars b4 ++ hex2Chars b5], ':' ∉ f := by
    intro f hf
    simp only [List.mem_cons, List.not_mem_nil, or_false] at hf
    rcases hf with rfl | rfl | rfl | rfl <;> intro hm <;> rcases List.mem_append.mp hm with hm | hm
    · exact hex2Chars_no_colon h0 hm
    · exact hex2Chars_no_colon h1 hm
    · exact hex2Chars_no_colon h2 hm
    · exact absurd hm (by decide)
    · exact absurd hm (by decide)
    · exact hex2Chars_no_colon h3 hm
    · exact hex2Chars_no_colon h4 hm
    · exact hex2Chars_no_colon h5 hm
  have hmid := parse_middle_fields (by simp) (by simp) (by decide) hnnR (by decide) hcfR
    hL hR (by simp)
  have harg : linkLocalChars c0 b1 b2 b3 b4 b5
      = joinSep ':' [['f', 'e', '8', '0']] ++ ':' :: ':' ::
        joinSep ':' [hex2Chars c0 ++ hex2Chars b1, hex2Chars b2 ++ ['f', 'f'],
          ['f', 'e'] ++ hex2Chars b3, hex2Chars b4 ++ hex2Chars b5] := rfl
  unfold parseIPChars
  rw [hfs]
  show parseIPv6Chars (linkLocalChars c0 b1 b2 b3 b4 b5)
      = some [254, 128, 0, 0, 0, 0, 0, 0, c0, b1, b2, 255, 254, b3, b4, b5]
  rw [harg]
  exact hmid

theorem linkLocalToMAC_linkLocal {c0 b1 b2 b3 b4 b5 : Nat} (h0 : c0 < 256) (h1 : b1 < 256)
    (h2 : b2 < 256) (h3 : b3 < 256) (h4 : b4 < 256) (h5 : b5 < 256) :
    linkLocalToMAC (String.mk (linkLocalChars c0 b1 b2 b3 b4 b5))
      = .ok (String.mk (macChars [c0 ^^^ 2, b1, b2, b3, b4, b5])) := by
  have hip : parseIP (String.mk (linkLocalChars c0 b1 b2 b3 b4 b5))
      = some [254, 128, 0, 0, 0, 0, 0, 0, c0, b1, b2, 255, 254, b3, b4, b5] :=
    parseIP_linkLocal h0 h1 h2 h3 h4 h5
  unfold linkLocalToMAC
  rw [hip]
  rfl

theorem macToLinkLocal_canon {b0 b1 b2 b3 b4 b5 : Nat} (h0 : b0 < 256) (h1 : b1 < 256)
    (h2 : b2 < 256) (h3 : b3 < 256) (h4 : b4 < 256) (h5 : b5 < 256) :
    macToLinkLocal (String.mk (macChars [b0, b1, b2, b3, b4, b5]))
      = .ok (String.mk (linkLocalChars (b0 ^^^ 2) b1 b2 b3 b4 b5)) := by
  have hnc : ∀ f ∈ [hex2Chars b0, hex2Chars b1, hex2Chars b2, hex2Chars b3, hex2Chars b4,
      hex2Chars b5], ':' ∉ f := by
    intro f hf
    simp only [List.mem_cons, List.not_mem_nil, or_false] at hf
    rcases hf with rfl | rfl | rfl | rfl | rfl | rfl
    exacts [hex2Chars_no_colon h0, hex2Chars_no_colon h1, hex2Chars_no_colon h2,
      hex2Chars_no_colon h3, hex2Chars_no_colon h4, hex2Chars_no_colon h5]
  have hsplit : splitCh ':' (macChars [b0, b1, b2, b3, b4, b5])
      = [hex2Chars b0, hex2Chars b1, hex2Chars b2, hex2Chars b3, hex2Chars b4,
        hex2Chars b5] := by
    have e : macChars [b0, b1, b2, b3, b4, b5] = joinSep ':' [hex2Chars b0, hex2Chars b1,
        hex2Chars b2, hex2Chars b3, hex2Chars b4, hex2Chars b5] := rfl
    rw [e]
    exact splitCh_joinSep (by simp) hnc
  have hscan : scanParts [hex2Chars b0, hex2Chars b1, hex2Chars b2, hex2Chars b3,
      hex2Chars b4, hex2Chars b5] = some [b0, b1, b2, b3, b4, b5] :=
    scanParts_cons (sscanfHexByte_hex2 b0 h0) (scanParts_cons (sscanfHexByte_hex2 b1 h1)
      (scanParts_cons (sscanfHexByte_hex2 b2 h2) (scanParts_cons (sscanfHexByte_hex2 b3 h3)
      (scanParts_cons (sscanfHexByte_hex2 b4 h4)
        (scanParts_cons (sscanfHexByte_hex2 b5 h5) rfl)))))
  have hd : (String.mk (macChars [b0, b1, b2, b3, b4, b5])).data
      = macChars [b0, b1, b2, b3, b4, b5] := rfl
  unfold macToLinkLocal
  rw [hd, hsplit]
  simp only [hscan, List.length_cons, List.length_nil]
  rfl

/-- C3 (counterexample): `macToLinkLocal` accepts the syntactically valid
6-octet MAC string `"1:2:3:4:5:6"` (Go's `Sscanf "%x"` accepts one-digit
octets), but the round trip returns the canonicalised `"01:02:03:04:05:06"`,
not the original string. -/
theorem C3_counterexample :
    macToLinkLocal "1:2:3:4:5:6" = .ok "fe80::0302:03ff:fe04:0506" ∧
    linkLocalToMAC "fe80::0302:03ff:fe04:0506" = .ok "01:02:03:04:05:06" ∧
    ("01:02:03:04:05:06" : String) ≠ "1:2:3:4:5:6" := by
  refine ⟨rfl, ?_, by decide⟩
  exact @linkLocalToMAC_linkLocal 3 2 3 4 5 6 (by decide) (by decide) (by decide) (by decide)
    (by decide) (by decide)

/-- C3 (amended): the MAC ↔ link-local round trip holds for canonical MAC
strings: for any six octets (each below 256), `macToLinkLocal` applied to
the `%02x`-formatted colon-separated MAC string succeeds, and
`linkLocalToMAC` applied to the produced link-local address succeeds and
returns that same MAC string.  For non-canonical spellings accepted by
`Sscanf "%x"` the round trip instead returns the canonicalised MAC. -/
theorem C3_amended (o : List Nat) (h6 : o.length = 6) (hb : ∀ x ∈ o, x < 256) :
    ∃ ll, macToLinkLocal (String.mk (macChars o)) = .ok ll ∧
      linkLocalToMAC ll = .ok (String.mk (macChars o)) := by
  obtain ⟨b0, b1, b2, b3, b4, b5, rfl⟩ :
      ∃ b0 b1 b2 b3 b4 b5, o = [b0, b1, b2, b3, b4, b5] := by
    rcases o with _ | ⟨b0, _ | ⟨b1, _ | ⟨b2, _ | ⟨b3, _ | ⟨b4, _ | ⟨b5, _ | ⟨b6, t⟩⟩⟩⟩⟩⟩⟩ <;>
      first
        | exact ⟨b0, b1, b2, b3, b4, b5, rfl⟩
        | (exfalso; simp only [List.length_cons, List.length_nil] at h6; omega)
  have h0 : b0 < 256 := hb b0 (by simp)
  have h1 : b1 < 256 := hb b1 (by simp)
  have h2 : b2 < 256 := hb b2 (by simp)
  have h3 : b3 < 256 := hb b3 (by simp)
  have h4 : b4 < 256 := hb b4 (by simp)
  have h5 : b5 < 256 := hb b5 (by simp)
  have hx : b0 ^^^ 2 < 256 := by
    have := Nat.xor_lt_two_pow (show b0 < 2 ^ 8 by omega) (show 2 < 2 ^ 8 by omega)
    omega
  refine ⟨_, macToLinkLocal_canon h0 h1 h2 h3 h4 h5, ?_⟩
  rw [linkLocalToMAC_linkLocal hx h1 h2 h3 h4 h5]
  rw [Nat.xor_cancel_right 2 b0]

theorem C3_witness :
    ([0, 17, 34, 51, 68, 85] : List Nat).length = 6 ∧
    (∀ x ∈ ([0, 17, 34, 51, 68, 85] : List Nat), x < 256) ∧
    (∃ ll, macToLinkLocal (String.mk (macChars [0, 17, 34, 51, 68, 85])) = .ok ll ∧
      linkLocalToMAC ll = .ok (String.mk (macChars [0, 17, 34, 51, 68, 85]))) :=
  ⟨by decide, by decide, C3_amended [0, 17, 34, 51, 68, 85] (by decide) (by decide)⟩

/-! ## Claim C4 -/

/-- C4: for every valid dotted-quad IPv4 address string `v4` and every
prefix string `pfx` accepted by `net.ParseIP` (whose parse is always a
16-byte value), `ipv4ToSynthesized v4 pfx` succeeds, and
`synthesizedToIPv4` applied to its result succeeds and returns exactly
`v4`. -/
theorem C4 (v4 pfx : String) (q pp : List Nat)
    (hq : parseIPv4Chars v4.data = some q) (hp : parseIP pfx = some pp) :
    ∃ s, ipv4ToSynthesized v4 pfx = .ok s ∧ synthesizedToIPv4 s = .ok v4 := by
  obtain ⟨hcanon, hql, _⟩ := parseIPv4Chars_canon hq
  obtain ⟨a, b, c, d, rfl⟩ : ∃ a b c d, q = [a, b, c, d] := by
    rcases q with _ | ⟨a, _ | ⟨b, _ | ⟨c, _ | ⟨d, _ | ⟨e, t⟩⟩⟩⟩⟩ <;>
      first
        | exact ⟨a, b, c, d, rfl⟩
        | (exfalso; simp only [List.length_cons, List.length_nil] at hql; omega)
  have hqb := parseIPv4Chars_bounds hq
  have ha : a < 256 := hqb a (by simp)
  have hb : b < 256 := hqb b (by simp)
  have hc : c < 256 := hqb c (by simp)
  have hd : d < 256 := hqb d (by simp)
  have hfd : firstSpecial v4.data = some '.' := by
    rw [hcanon]
    show firstSpecial (decChars a ++ '.' :: joinSep '.' [decChars b, decChars c, decChars d])
      = some '.'
    exact firstSpecial_field_dot decChars_nonspecial
  have hv : parseIP v4 = some (v4InV6 [a, b, c, d]) := by
    show parseIPChars v4.data = some (v4InV6 [a, b, c, d])
    unfold parseIPChars
    rw [hfd]
    simp only [hq]
  have hto4 : to4 (v4InV6 [a, b, c, d]) = some [a, b, c, d] := rfl
  have hplen : pp.length = 16 := parseIPChars_length hp
  have hppb := parseIPChars_bounds hp
  have hp16 : to16 pp = some pp := by
    unfold to16
    rw [if_neg (by omega), if_pos hplen]
  have e1 : ipv4ToSynthesized v4 pfx = .ok (ipString (pp.take 12 ++ [a, b, c, d])) := by
    unfold ipv4ToSynthesized
    rw [hv]
    simp only [hto4, hp, hp16, Option.getD_some]
  have hMlen : (pp.take 12 ++ [a, b, c, d]).length = 16 := by
    simp only [List.length_append, List.length_take, List.length_cons, List.length_nil, hplen]
    omega
  have hMb : ∀ x ∈ pp.take 12 ++ [a, b, c, d], x < 256 := by
    intro x hx
    rcases List.mem_append.mp hx with hx | hx
    · exact hppb x (List.mem_of_mem_take hx)
    · simp only [List.mem_cons, List.not_mem_nil, or_false] at hx
      rcases hx with rfl | rfl | rfl | rfl
      exacts [ha, hb, hc, hd]
  have hparse : parseIP (ipString (pp.take 12 ++ [a, b, c, d]))
      = some (pp.take 12 ++ [a, b, c, d]) := parseIP_ipString hMlen hMb
  have hm16 : to16 (pp.take 12 ++ [a, b, c, d]) = some (pp.take 12 ++ [a, b, c, d]) := by
    unfold to16
    rw [if_neg (by omega), if_pos hMlen]
  have hdrop : (pp.take 12 ++ [a, b, c, d]).drop 12 = [a, b, c, d] :=
    List.drop_left' (by simp only [List.length_take, hplen]; omega)
  have hfin : String.mk (v4DottedChars [a, b, c, d]) = v4 := by
    rw [show v4DottedChars [a, b, c, d] = v4.data from hcanon.symm, stringMk_data]
  refine ⟨_, e1, ?_⟩
  unfold synthesizedToIPv4
  rw [hparse]
  simp only [hm16, hdrop]
  rw [← hfin]
  rfl

theorem C4_witness :
    parseIPv4Chars ("192.0.2.33" : String).data = some [192, 0, 2, 33] ∧
    parseIP "64:ff9b::" = some [0, 100, 255, 155, 0, 0, 0, 0, 0, 0, 0, 0, 0, 0, 0, 0] ∧
    ∃ s, ipv4ToSynthesized "192.0.2.33" "64:ff9b::" = .ok s ∧
      synthesizedToIPv4 s = .ok "192.0.2.33" :=
  ⟨rfl, rfl, C4 "192.0.2.33" "64:ff9b::" [192, 0, 2, 33]
    [0, 100, 255, 155, 0, 0, 0, 0, 0, 0, 0, 0, 0, 0, 0, 0] rfl rfl⟩

/-! ## Claims C5 and C6 -/

/-- C5 (counterexample): for prefix length 1 (in the spec's range
`[1,128]`), `ipv6ToArpa` still appends the `.ip6.arpa.` suffix (the Go
guard `trim >= 0 && trim < 32` sends every prefix length below 4 to the
suffixed branch), rather than returning the 32 reversed nibbles without
the suffix. -/
theorem C5_counterexample :
    ipv6ToArpa "::" 1
      = .ok "0.0.0.0.0.0.0.0.0.0.0.0.0.0.0.0.0.0.0.0.0.0.0.0.0.0.0.0.0.0.0.0.ip6.arpa." ∧
    ("0.0.0.0.0.0.0.0.0.0.0.0.0.0.0.0.0.0.0.0.0.0.0.0.0.0.0.0.0.0.0.0.ip6.arpa." : String)
      ≠ "0.0.0.0.0.0.0.0.0.0.0.0.0.0.0.0.0.0.0.0.0.0.0.0.0.0.0.0.0.0.0.0" :=
  ⟨rfl, by decide⟩

/-- C5 (amended): for every address accepted by `net.ParseIP` and every
prefix length `p` in `[0,128]`, `ipv6ToArpa` appends the `.ip6.arpa.`
suffix exactly when `p / 4 = 0` — that is, for `p ≤ 3`, not only for
`p = 0` — returning all 32 reversed nibbles dot-joined plus the suffix;
for `4 ≤ p ≤ 128` it returns the first `32 - p/4` reversed nibbles
dot-joined without the suffix (the empty string when `p = 128`). -/
theorem C5_amended (s : String) (b : List Nat) (p : Int) (hs : parseIP s = some b)
    (h0 : 0 ≤ p) (h128 : p ≤ 128) :
    (p ≤ 3 → ipv6ToArpa s p
        = .ok (joinStrings "." (((hexPlainChars b).map fun c => String.mk [c]).reverse)
            ++ ".ip6.arpa.")) ∧
    (4 ≤ p → ipv6ToArpa s p
        = .ok (joinStrings "."
            ((((hexPlainChars b).map fun c => String.mk [c]).reverse).take
              ((32 : Int) - p / 4).toNat))) := by
  have hlen : b.length = 16 := parseIPChars_length hs
  have ht : to16 b = some b := by
    unfold to16
    rw [if_neg (by omega), if_pos hlen]
  have hc1 : ¬(p < 0 ∨ 128 < p) := by omega
  constructor
  · intro hpc
    have hc2 : ¬(0 ≤ 32 - p / 4 ∧ 32 - p / 4 < 32) := by omega
    unfold ipv6ToArpa
    rw [hs]
    simp only [ht, if_neg hc1, if_neg hc2]
  · intro hpc
    have hc2 : 0 ≤ 32 - p / 4 ∧ 32 - p / 4 < 32 := by omega
    unfold ipv6ToArpa
    rw [hs]
    simp only [ht, if_neg hc1, if_pos hc2]

theorem C5_witness : ipv6ToArpa "::" 128 = .ok "" := by
  rw [(C5_amended "::" (List.replicate 16 0) 128 rfl (by decide) (by decide)).2 (by decide)]
  rfl

/-- C6: for every address accepted by `net.ParseIP`, `ipv6ToArpa` returns
an error exactly when the prefix length is outside `[0,128]` (with the
`Invalid prefix length` message); every in-range prefix length — aligned
or not, the nibble-alignment diagnostic being advisory only — produces a
successful result. -/
theorem C6 (s : String) (b : List Nat) (p : Int) (hs : parseIP s = some b) :
    (0 ≤ p ∧ p ≤ 128 → ∃ r, ipv6ToArpa s p = .ok r) ∧
    (p < 0 ∨ 128 < p →
      ipv6ToArpa s p = .error ("Invalid prefix length: " ++ intDecString p)) := by
  have hlen : b.length = 16 := parseIPChars_length hs
  have ht : to16 b = some b := by
    unfold to16
    rw [if_neg (by omega), if_pos hlen]
  constructor
  · intro h
    by_cases hc : 0 ≤ 32 - p / 4 ∧ 32 - p / 4 < 32
    · refine ⟨joinStrings "."
        ((((hexPlainChars b).map fun c => String.mk [c]).reverse).take
          ((32 : Int) - p / 4).toNat), ?_⟩
      unfold ipv6ToArpa
      rw [hs]
      simp only [ht, if_neg (show ¬(p < 0 ∨ 128 < p) by omega), if_pos hc]
    · refine ⟨joinStrings "." (((hexPlainChars b).map fun c => String.mk [c]).reverse)
        ++ ".ip6.arpa.", ?_⟩
      unfold ipv6ToArpa
      rw [hs]
      simp only [ht, if_neg (show ¬(p < 0 ∨ 128 < p) by omega), if_neg hc]
  · intro h
    unfold ipv6ToArpa
    rw [hs]
    simp only [ht, if_pos h]

theorem C6_witness :
    (∃ r, ipv6ToArpa "::" 7 = .ok r) ∧
    ipv6ToArpa "::" 129 = .error ("Invalid prefix length: " ++ intDecString 129) :=
  ⟨(C6 "::" (List.replicate 16 0) 7 rfl).1 (by decide),
    (C6 "::" (List.replicate 16 0) 129 rfl).2 (by decide)⟩

/-! ## Claim C7 -/

/-- C7: classification is first-match over the ordered rule chain: every
16-byte address whose first four bytes are `0x20, 0x01, 0x00, 0x00` is
classified as Teredo and never as Global Unicast, even though
`2001:0000::/32` lies inside `2000::/3`; in particular `2001::1` gets the
Teredo label. -/
theorem C7 (b : List Nat) (hlen : b.length = 16) (h0 : b.getD 0 0 = 0x20)
    (h1 : b.getD 1 0 = 0x01) (h2 : b.getD 2 0 = 0x00) (h3 : b.getD 3 0 = 0x00) :
    classifyIPv6 b = "Teredo (2001:0000::/32)" ∧
    classifyIPv6 b ≠ "Global Unicast (2000::/3)" ∧
    classifyIPv6 ((parseIP "2001::1").getD []) = "Teredo (2001:0000::/32)" := by
  obtain ⟨a0, a1, a2, a3, a4, a5, a6, a7, a8, a9, a10, a11, a12, a13, a14, a15, rfl⟩ :=
    list16_of_length hlen
  simp only [List.getD_cons_zero, List.getD_cons_succ] at h0 h1 h2 h3
  subst h0
  subst h1
  subst h2
  subst h3
  have hT : classifyIPv6 [0x20, 0x01, 0x00, 0x00, a4, a5, a6, a7, a8, a9, a10, a11, a12,
      a13, a14, a15] = "Teredo (2001:0000::/32)" := rfl
  refine ⟨hT, ?_, rfl⟩
  rw [hT]
  decide

theorem C7_witness :
    ([32, 1, 0, 0, 0, 0, 0, 0, 0, 0, 0, 0, 0, 0, 0, 1] : List Nat).length = 16 ∧
    (classifyIPv6 [32, 1, 0, 0, 0, 0, 0, 0, 0, 0, 0, 0, 0, 0, 0, 1]
        = "Teredo (2001:0000::/32)" ∧
      classifyIPv6 [32, 1, 0, 0, 0, 0, 0, 0, 0, 0, 0, 0, 0, 0, 0, 1]
        ≠ "Global Unicast (2000::/3)" ∧
      classifyIPv6 ((parseIP "2001::1").getD []) = "Teredo (2001:0000::/32)") :=
  ⟨by decide, C7 [32, 1, 0, 0, 0, 0, 0, 0, 0, 0, 0, 0, 0, 0, 0, 1] (by decide) (by decide)
    (by decide) (by decide) (by decide)⟩

/-! ## Claim C8 -/

/-- C8: `compressionPermutations` returns the empty list for the address
with groups `2001:db8:1:2:3:4:5:6` (no zero run of length ≥ 1 at any
window), exactly `["2001:db8::1:2:3:4"]` for groups
`2001:db8:0:0:1:2:3:4`, and for the all-zero address exactly 28 pairwise
distinct variants, one of which is `"::"`. -/
theorem C8 :
    compressionPermutations [0x20, 0x01, 0x0d, 0xb8, 0, 1, 0, 2, 0, 3, 0, 4, 0, 5, 0, 6]
      = [] ∧
    compressionPermutations [0x20, 0x01, 0x0d, 0xb8, 0, 0, 0, 0, 0, 1, 0, 2, 0, 3, 0, 4]
      = ["2001:db8::1:2:3:4"] ∧
    (compressionPermutations (List.replicate 16 0)).length = 28 ∧
    (compressionPermutations (List.replicate 16 0)).Nodup ∧
    "::" ∈ compressionPermutations (List.replicate 16 0) :=
  ⟨rfl, rfl, rfl, by decide, by decide⟩

/-! ## Claim C9 -/

/-- C9: on every input whose initial validation succeeds (the string
parses as an IP, whose parse is always 16 bytes), `synthesizedToIPv4`
returns a dotted-decimal result and never an error: the 4 extracted bytes
always have length exactly 4, so the second failure branch is
unreachable. -/
theorem C9 (s : String) (ip : List Nat) (hs : parseIP s = some ip) :
    ((ip.drop 12).take 4).length = 4 ∧
    synthesizedToIPv4 s = .ok (String.mk (v4DottedChars ((ip.drop 12).take 4))) := by
  have hlen : ip.length = 16 := parseIPChars_length hs
  have hl4 : ((ip.drop 12).take 4).length = 4 := by
    simp only [List.length_take, List.length_drop, hlen]
    omega
  have ht : to16 ip = some ip := by
    unfold to16
    rw [if_neg (by omega), if_pos hlen]
  refine ⟨hl4, ?_⟩
  unfold synthesizedToIPv4
  rw [hs]
  simp only [ht, if_neg (show ¬((ip.drop 12).take 4).length ≠ 4 by omega)]

theorem C9_witness :
    parseIP "64:ff9b::c000:221"
      = some [0, 100, 255, 155, 0, 0, 0, 0, 0, 0, 0, 0, 192, 0, 2, 33] ∧
    ((([0, 100, 255, 155, 0, 0, 0, 0, 0, 0, 0, 0, 192, 0, 2, 33] : List Nat).drop 12).take
        4).length = 4 ∧
    synthesizedToIPv4 "64:ff9b::c000:221" = .ok (String.mk (v4DottedChars
      ((([0, 100, 255, 155, 0, 0, 0, 0, 0, 0, 0, 0, 192, 0, 2, 33] : List Nat).drop
        12).take 4))) :=
  ⟨rfl, C9 "64:ff9b::c000:221" [0, 100, 255, 155, 0, 0, 0, 0, 0, 0, 0, 0, 192, 0, 2, 33] rfl⟩

/-! ## Claim C10 -/

/-- C10: `linkLocalToMAC` decides link-locality by a case-sensitive
textual prefix test for the literal lowercase `"fe80"` on the input
string.  `FE80::0211:22ff:fe33:4455` and `febf::0211:22ff:fe33:4455` both
parse to 16-byte addresses inside `fe80::/10` (first byte `0xfe`, second
byte with top two bits `10`) whose interface ID carries the `0xff, 0xfe`
EUI-64 marker, yet both are rejected with an error, while the lowercase
spelling `fe80::0211:22ff:fe33:4455` of the first yields the MAC. -/
theorem C10 :
    parseIP "FE80::0211:22ff:fe33:4455"
      = some [254, 128, 0, 0, 0, 0, 0, 0, 2, 17, 34, 255, 254, 51, 68, 85] ∧
    parseIP "febf::0211:22ff:fe33:4455"
      = some [254, 191, 0, 0, 0, 0, 0, 0, 2, 17, 34, 255, 254, 51, 68, 85] ∧
    (∀ b ∈ [[254, 128, 0, 0, 0, 0, 0, 0, 2, 17, 34, 255, 254, 51, 68, 85],
        ([254, 191, 0, 0, 0, 0, 0, 0, 2, 17, 34, 255, 254, 51, 68, 85] : List Nat)],
      b.getD 0 0 = 0xfe ∧ b.getD 1 0 &&& 0xc0 = 0x80 ∧
      b.getD 11 0 = 0xff ∧ b.getD 12 0 = 0xfe) ∧
    linkLocalToMAC "FE80::0211:22ff:fe33:4455" = .error "invalid IPv6 address" ∧
    linkLocalToMAC "febf::0211:22ff:fe33:4455" = .error "invalid IPv6 address" ∧
    linkLocalToMAC "fe80::0211:22ff:fe33:4455" = .ok "00:11:22:33:44:55" :=
  ⟨rfl, rfl, by decide, rfl, rfl, rfl⟩
